import Mathlib

/-!
# bbcpp: the BBCode scanner and the node model of `src/lib/BBDocument.h`

A shallow embedding of `BBDocument::load`, `parseText`, `parseElementName`,
`parseElement`, `BBNode::appendChild`, `BBNode::downCast` and the printer
(`getIndent`, `printChildren`, `printDocument`), followed by the properties
established about them.

Conventions of the embedding

* The input `std::string` is a `List Char`; an iterator into it is its offset
  (a `Nat`), `begin` is `0` and `end` is the length.
* `newText`, `newElement` and `newClosingElement` are declared in the header but
  their bodies are not part of it.  The scanner is therefore embedded as a
  function that returns the sequence of builder calls it issues, in order.
* Nodes live in a heap indexed by node identity (the address held by the
  `std::shared_ptr`).
* `std::cout` is the sequence of characters written to it; recursion over the
  heap takes a bound on its depth.
-/

namespace bbcpp

/-- Equality of results of code that may throw is decidable. -/
instance instDecidableEqExcept {ε α : Type} [DecidableEq ε] [DecidableEq α] :
    DecidableEq (Except ε α)
  | Except.ok a, Except.ok b =>
    if h : a = b then isTrue (by rw [h]) else isFalse (fun h' => h (Except.ok.inj h'))
  | Except.error a, Except.error b =>
    if h : a = b then isTrue (by rw [h]) else isFalse (fun h' => h (Except.error.inj h'))
  | Except.ok _, Except.error _ => isFalse (fun h => Except.noConfusion h)
  | Except.error _, Except.ok _ => isFalse (fun h => Except.noConfusion h)

/-! ## Scanner -/

/-- The calls the scanner makes on the tree builder (`BBDocument.h` 335-337). -/
inductive BuilderCall where
  | newText (text : List Char)
  | newElement (name : List Char)
  | newClosingElement (name : List Char)
  deriving DecidableEq, Repr

/-- Dereference of a string iterator, `*it`.  A `std::string` keeps a `'\0'` after its
last character, which is what a read at `end()` returns. -/
def deref (s : List Char) (it : Nat) : Char :=
  s.getD it (Char.ofNat 0)

/-- The range constructor `std::string(first, last)`. -/
def substr (s : List Char) (first last : Nat) : List Char :=
  (s.drop first).take (last - first)

/-- The character class `std::isalnum(c) != 0` in the "C" locale. -/
def isalnum (c : Char) : Bool :=
  c.isAlphanum

/-- The `for` loop of `parseText` (lines 177-184): `n` is the distance `end - it`
(the callers pass `begin` at or before `end`).  `some it` is the iterator at which the
loop hit `break`, `none` means the loop ran to `end` without finding `'['`. -/
def parseTextLoop (s : List Char) : Nat → Nat → Option Nat
  | 0, _ => none
  | n + 1, it => if deref s it = '[' then some it else parseTextLoop s n (it + 1)

/-- `BBDocument::parseText` (lines 172-194): the builder calls made and the iterator
returned. -/
def parseText (s : List Char) (begin endPos : Nat) : List BuilderCall × Nat :=
  let endingChar := (parseTextLoop s (endPos - begin) begin).getD begin
  let endingChar := if endingChar = begin then endPos else endingChar
  ([BuilderCall.newText (substr s begin endingChar)], endingChar)

/-- The `for` loop of `parseElementName` (lines 202-214): `n` is the distance
`end - it`, `str` the contents of the string stream.  `some (it, str)` is the early
`return it` with the characters written so far, `none` means the loop ran to `end`. -/
def parseElementNameLoop (s : List Char) : Nat → Nat → List Char → Option (Nat × List Char)
  | 0, _, _ => none
  | n + 1, it, str =>
    if isalnum (deref s it) then parseElementNameLoop s n (it + 1) (str ++ [deref s it])
    else some (it, str)

/-- `BBDocument::parseElementName` (lines 196-217): the iterator returned and the value
of the reference parameter `buf` afterwards.  When the loop reaches `end` the function
returns `start` and `buf` is left as it was. -/
def parseElementName (s : List Char) (begin endPos : Nat) (buf : List Char) :
    Nat × List Char :=
  match parseElementNameLoop s (endPos - begin) begin [] with
  | some (it, str) => (it, str)
  | none => (begin, buf)

/-- `BBDocument::parseElement` (lines 219-256): the builder calls made and the iterator
returned. -/
def parseElement (s : List Char) (begin endPos : Nat) : List BuilderCall × Nat :=
  let nameStart := begin + 1
  let closingTag := decide (deref s nameStart = '/')
  let nameStart := if closingTag then nameStart + 1 else nameStart
  let (nameEnd, elementName) := parseElementName s nameStart endPos []
  if elementName.isEmpty then
    ([BuilderCall.newText [deref s begin]], nameEnd)
  else if closingTag then
    ([BuilderCall.newClosingElement elementName], nameEnd + 1)
  else
    ([BuilderCall.newElement elementName], nameEnd + 1)

/-- `BBNode::NodeType` (lines 74-79). -/
inductive NodeType where
  | DOCUMENT
  | ELEMENT
  | TEXT
  deriving DecidableEq, Repr

/-- The local variables of `BBDocument::load` that live across iterations of its
`while` loop, and the builder calls made so far. -/
structure LoadState where
  current : Nat
  bUnknownNodeType : Bool
  nodeType : NodeType
  calls : List BuilderCall
  deriving DecidableEq, Repr

/-- One execution of the body of the `while` loop of `load` (lines 282-328).  The
`default:` branch of the `switch` throws. -/
def loadBody (s : List Char) (endPos : Nat) (st : LoadState) : Except String LoadState :=
  let st :=
    if st.bUnknownNodeType then
      if deref s st.current = '[' then
        { st with nodeType := NodeType.ELEMENT, bUnknownNodeType := false }
      else
        { st with nodeType := NodeType.TEXT, bUnknownNodeType := false }
    else st
  if !st.bUnknownNodeType then
    match st.nodeType with
    | NodeType.DOCUMENT => Except.error "Unknown node type in BBDocument::load()"
    | NodeType.TEXT =>
      let r := parseText s st.current endPos
      Except.ok { st with current := r.2, bUnknownNodeType := true, calls := st.calls ++ r.1 }
    | NodeType.ELEMENT =>
      let r := parseElement s st.current endPos
      if r.2 = st.current then
        Except.ok { st with nodeType := NodeType.TEXT, bUnknownNodeType := false,
                            calls := st.calls ++ r.1 }
      else
        Except.ok { st with current := r.2, bUnknownNodeType := true,
                            calls := st.calls ++ r.1 }
  else Except.ok st

/-- The `while (current != end)` loop of `load`, run for at most `fuel` iterations.
`none`: the loop is still running when the fuel is spent; `some (Except.error _)`: an
iteration threw; `some (Except.ok st)`: the loop exited in state `st`. -/
def loadLoop (s : List Char) (endPos : Nat) : Nat → LoadState → Option (Except String LoadState)
  | 0, st => if st.current = endPos then some (Except.ok st) else none
  | fuel + 1, st =>
    if st.current = endPos then some (Except.ok st)
    else
      match loadBody s endPos st with
      | Except.error e => some (Except.error e)
      | Except.ok st' => loadLoop s endPos fuel st'

/-- The state of `load` on entry to its loop (lines 273-276). -/
def loadInit : LoadState :=
  { current := 0, bUnknownNodeType := true, nodeType := NodeType.TEXT, calls := [] }

/-- `BBDocument::load(const std::string&)` (lines 265-330) with a bound on the number
of loop iterations: the builder calls made, in order. -/
def load (s : List Char) (fuel : Nat) : Option (Except String (List BuilderCall)) :=
  (loadLoop s s.length fuel loadInit).map (fun r => r.map LoadState.calls)

/-- The states of the loop of `load` on input `s`: the state on entry, and every state
that one execution of the loop body produces from such a state while the loop condition
`current != end` holds. -/
inductive LoadReachable (s : List Char) : LoadState → Prop where
  | init : LoadReachable s loadInit
  | step (st st' : LoadState) : LoadReachable s st → st.current ≠ s.length →
      loadBody s s.length st = Except.ok st' → LoadReachable s st'

/-- The iterator at which `parseElement` starts reading the tag name. -/
def nameStartOf (s : List Char) (begin : Nat) : Nat :=
  if deref s (begin + 1) = '/' then begin + 2 else begin + 1

/-! ## Node model -/

/-- The class an object was created as: what `std::dynamic_pointer_cast` inspects. -/
inductive NodeClass where
  | BBNode
  | BBText
  | BBElement
  | BBDocument
  deriving DecidableEq, Repr

/-- `BBElement::ElementType` (lines 141-147). -/
inductive ElementType where
  | SIMPLE
  | VALUE
  | PARAMETER
  | CLOSING
  deriving DecidableEq, Repr

/-- The identity of a node object: what a non-null `BBNodePtr` holds. -/
abbrev NodePtr := Nat

/-- The data members of a node object (lines 109-112, and `_elementType` of line 161,
read only when the object is a `BBElement`).  `parent` is the `std::weak_ptr`, `none`
when it is empty. -/
structure BBNode where
  cls : NodeClass
  name : List Char
  nodeType : NodeType
  parent : Option NodePtr
  children : List NodePtr
  elementType : ElementType
  deriving DecidableEq, Repr

/-- The node objects of a program state, by identity. -/
abbrev Heap := NodePtr → BBNode

/-- `BBNode::appendChild` (lines 90-94), called on the object `this` with argument
`node`: the two assignments in the order of the source. -/
def appendChild (h : Heap) (this node : NodePtr) : Heap :=
  let h1 : Heap := fun i =>
    if i = this then { h i with children := (h i).children ++ [node] } else h i
  fun i => if i = node then { h1 i with parent := some this } else h1 i

/-- Whether `std::dynamic_pointer_cast` to `target` succeeds on an object of class `cls`:
`BBText`, `BBElement` and `BBDocument` each derive from `BBNode` and from nothing else. -/
def derivesFrom (cls target : NodeClass) : Bool :=
  decide (cls = target) || decide (target = NodeClass.BBNode)

/-- `std::dynamic_pointer_cast<T>(node)` for `T` the class `target`. -/
def dynamicPointerCast (h : Heap) (target : NodeClass) (node : Option NodePtr) :
    Option NodePtr :=
  match node with
  | none => none
  | some n => if derivesFrom (h n).cls target then some n else none

/-- `BBNode::cast` (lines 29-49), for `NewTypePtrT` a shared pointer to the class
`target`; `Except.error` is the `std::invalid_argument` thrown, with its message.  The
`const` overload (lines 51-71) differs in the wording of the first message only. -/
def cast (h : Heap) (target : NodeClass) (node : Option NodePtr) (bThrowOnFail : Bool) :
    Except String (Option NodePtr) :=
  if node = none && !bThrowOnFail then Except.ok none
  else if node = none then Except.error "Cannot downcast BBNode, object is null"
  else
    let newobj := dynamicPointerCast h target node
    if newobj = none && bThrowOnFail then
      Except.error "Cannot downcast, object is not correct type"
    else Except.ok newobj

/-- `BBNode::downCast` (lines 96-100) called on the object `this`. -/
def downCast (h : Heap) (this : NodePtr) (target : NodeClass) (bThrowOnFail : Bool) :
    Except String (Option NodePtr) :=
  cast h target (some this) bThrowOnFail

/-- A heap of freshly created nodes: nothing has been attached to anything yet. -/
def Fresh (h : Heap) : Prop :=
  ∀ i, (h i).parent = none ∧ (h i).children = []

/-- A concrete heap of fresh Text nodes with empty content. -/
def freshHeap : Heap := fun _ =>
  { cls := NodeClass.BBText, name := [], nodeType := NodeType.TEXT, parent := none,
    children := [], elementType := ElementType.SIMPLE }

/-- The heaps that any sequence of `appendChild` calls produces from `h0`. -/
inductive HeapReachable (h0 : Heap) : Heap → Prop where
  | refl : HeapReachable h0 h0
  | step (h : Heap) (parent child : NodePtr) :
      HeapReachable h0 h → HeapReachable h0 (appendChild h parent child)

/-- The `k`-th node on the way up from `n` along the parent references: `n` itself for
`k = 0`; `none` when the chain ends before. -/
def ancestor (h : Heap) : Nat → NodePtr → Option NodePtr
  | 0, n => some n
  | k + 1, n =>
    match (h n).parent with
    | none => none
    | some p => ancestor h k p

/-- The tree shape of a heap: no child sequence holds a node twice, no node is held by
two child sequences, the holder of a node is exactly its parent reference, and no node
is its own ancestor. -/
structure TreeShape (h : Heap) : Prop where
  nodup : ∀ p, (h p).children.Nodup
  unique : ∀ p q c, c ∈ (h p).children → c ∈ (h q).children → p = q
  parent_iff : ∀ p c, c ∈ (h p).children ↔ (h c).parent = some p
  acyclic : ∀ n k, 0 < k → ancestor h k n ≠ some n

/-- The heaps that `appendChild` calls produce from `h0` when every call attaches a node
that has no parent yet and that is neither the new parent nor one of its ancestors. -/
inductive AttachReachable (h0 : Heap) : Heap → Prop where
  | refl : AttachReachable h0 h0
  | step (h : Heap) (parent child : NodePtr) :
      AttachReachable h0 h → (h child).parent = none →
      (∀ k, ancestor h k parent ≠ some child) →
      AttachReachable h0 (appendChild h parent child)

/-- Modelled from the spec: the sub-kind of the Element that a builder call creates; the
bodies of `newElement` and `newClosingElement` are missing from the header.  By §4.3 an
opening tag gives an Element of sub-kind SIMPLE (the default of the `BBElement`
constructor, line 149) and a closing tag one of sub-kind CLOSING; `newText` creates no
Element. -/
def elementKind : BuilderCall → Option ElementType
  | BuilderCall.newText _ => none
  | BuilderCall.newElement _ => some ElementType.SIMPLE
  | BuilderCall.newClosingElement _ => some ElementType.CLOSING

/-- What a string `t` handed to `newText` can be on input `s`: non-empty, and either the
single character `[` or a stretch of `s` without `[` that ends at the end of `s` or
immediately before a `[`. -/
def IsLoadText (s t : List Char) : Prop :=
  t ≠ [] ∧
    (t = ['['] ∨
      ((∀ c ∈ t, c ≠ '[') ∧
        ∃ i, t = substr s i (i + t.length) ∧
          (i + t.length = s.length ∨ deref s (i + t.length) = '[')))

/-! ## Well-formed inputs and the serialisation of builder calls -/

/-- The pieces a well-formed input is made of: a text run, a tag `[name]`, a tag
`[/name]`. -/
inductive Token where
  | text (t : List Char)
  | openTag (name : List Char)
  | closeTag (name : List Char)
  deriving DecidableEq, Repr

/-- The characters a token stands for in the input. -/
def Token.render : Token → List Char
  | Token.text t => t
  | Token.openTag name => '[' :: (name ++ [']'])
  | Token.closeTag name => '[' :: '/' :: (name ++ [']'])

/-- The input that is the concatenation of the tokens. -/
def renderTokens : List Token → List Char
  | [] => []
  | tok :: toks => tok.render ++ renderTokens toks

/-- A text run holds no `[`; a tag name is non-empty and alphanumeric. -/
def Token.WellFormed : Token → Prop
  | Token.text t => ∀ c ∈ t, c ≠ '['
  | Token.openTag name => name ≠ [] ∧ ∀ x ∈ name, isalnum x = true
  | Token.closeTag name => name ≠ [] ∧ ∀ x ∈ name, isalnum x = true

instance instDecidableTokenWellFormed (tok : Token) : Decidable tok.WellFormed := by
  cases tok <;> unfold Token.WellFormed <;> infer_instance

/-- The text a builder call is serialised as: `newText(t)` as `t`, `newElement(n)` as
`[n]`, `newClosingElement(n)` as `[/n]`. -/
def serialiseCall : BuilderCall → List Char
  | BuilderCall.newText t => t
  | BuilderCall.newElement n => '[' :: (n ++ [']'])
  | BuilderCall.newClosingElement n => '[' :: '/' :: (n ++ [']'])

/-- The serialisation of a sequence of builder calls, in order. -/
def serialise : List BuilderCall → List Char
  | [] => []
  | c :: cs => serialiseCall c ++ serialise cs

/-! ## The positions the scanner reads -/

/-- The iterators dereferenced by the `for` loop of `parseText` (line 179), in order;
`n` is the distance `end - it`. -/
def parseTextLoopReads (s : List Char) : Nat → Nat → List Nat
  | 0, _ => []
  | n + 1, it => it :: (if deref s it = '[' then [] else parseTextLoopReads s n (it + 1))

/-- The positions read by `parseText`: those of its loop, then the characters of
`[begin, endingChar)` copied by `std::string(begin, endingChar)` (line 191). -/
def parseTextReads (s : List Char) (begin endPos : Nat) : List Nat :=
  parseTextLoopReads s (endPos - begin) begin ++
    List.range' begin ((parseText s begin endPos).2 - begin)

/-- The iterators dereferenced by the `for` loop of `parseElementName`, in order: `*it`
in the test of line 205 and, for an alphanumeric character, `*it` again in line 207;
`n` is the distance `end - it`. -/
def parseElementNameLoopReads (s : List Char) : Nat → Nat → List Nat
  | 0, _ => []
  | n + 1, it =>
    it :: (if isalnum (deref s it) then it :: parseElementNameLoopReads s n (it + 1) else [])

/-- The positions read by `parseElement`: `*nameStart` (line 230), the reads of
`parseElementName` from the start of the name, and `*begin` (line 242) when the name
is empty. -/
def parseElementReads (s : List Char) (begin endPos : Nat) : List Nat :=
  let nameStart := begin + 1
  let closingTag := decide (deref s nameStart = '/')
  let nameStart' := if closingTag then nameStart + 1 else nameStart
  [nameStart] ++ parseElementNameLoopReads s (endPos - nameStart') nameStart' ++
    (if (parseElementName s nameStart' endPos []).2.isEmpty then [begin] else [])

/-- The positions read by one execution of the body of the loop of `load`: `*current`
(line 284) when the node type is undetermined, then the reads of the function called. -/
def loadBodyReads (s : List Char) (endPos : Nat) (st : LoadState) : List Nat :=
  let nodeType :=
    if st.bUnknownNodeType then
      if deref s st.current = '[' then NodeType.ELEMENT else NodeType.TEXT
    else st.nodeType
  (if st.bUnknownNodeType then [st.current] else []) ++
    match nodeType with
    | NodeType.DOCUMENT => []
    | NodeType.TEXT => parseTextReads s st.current endPos
    | NodeType.ELEMENT => parseElementReads s st.current endPos

/-- The positions read by the loop of `load` in at most `fuel` iterations. -/
def loadLoopReads (s : List Char) (endPos : Nat) : Nat → LoadState → List Nat
  | 0, _ => []
  | fuel + 1, st =>
    if st.current = endPos then []
    else
      loadBodyReads s endPos st ++
        match loadBody s endPos st with
        | Except.error _ => []
        | Except.ok st' => loadLoopReads s endPos fuel st'

/-- The positions of the input read by `load`, in order. -/
def loadReads (s : List Char) (fuel : Nat) : List Nat :=
  loadLoopReads s s.length fuel loadInit

/-! ## The printer -/

/-- The `for` loop of `getIndent` (lines 370-373): `n` iterations still to run, `output`
the contents of the string stream.  The counter `i` is an `int` compared with the `uint`
bound, so the loop runs `indent` times for every `indent` up to 2^31 - 1. -/
def getIndentLoop : Nat → List Char → List Char
  | 0, output => output
  | n + 1, output => getIndentLoop n (output ++ "|   ".toList)

/-- `getIndent` (lines 366-377). -/
def getIndent (indent : Nat) : List Char :=
  getIndentLoop indent [] ++ "|-- ".toList

/-- The range of `uint` (`unsigned int`, 32 bits), the type of the depth counter
`indent`. -/
def uintRange : Nat := 4294967296

/-- What one pass of the `switch` of `printChildren` (lines 383-408) writes to
`std::cout` for `node`; `Except.error` is the `std::invalid_argument` that `downCast`
throws.  `std::endl` is the character `'\n'`. -/
def printNode (h : Heap) (node : NodePtr) (indent : Nat) : Except String (List Char) :=
  match (h node).nodeType with
  | NodeType.ELEMENT =>
    match downCast h node NodeClass.BBElement true with
    | Except.error e => Except.error e
    | Except.ok none => Except.error "null pointer dereferenced"
    | Except.ok (some element) =>
      Except.ok (getIndent indent ++ "[".toList ++
        (if (h element).elementType = ElementType.CLOSING then "/".toList else "".toList) ++
        (h element).name ++ "]".toList ++ ['\n'])
  | NodeType.TEXT =>
    match downCast h node NodeClass.BBText true with
    | Except.error e => Except.error e
    | Except.ok none => Except.error "null pointer dereferenced"
    | Except.ok (some textnode) =>
      Except.ok (getIndent indent ++ "@\"".toList ++ (h textnode).name ++ "\"".toList ++ ['\n'])
  | NodeType.DOCUMENT => Except.ok []

/-- The `for` loop of `printChildren` (lines 381-411) over the nodes still to visit,
with the recursive call for each of them; `indent + 1` is computed in `uint`.  The
result is what is written to `std::cout`; `none` when `fuel` does not cover the depth
of the recursion. -/
def printChildrenLoop (h : Heap) : Nat → List NodePtr → Nat → Option (Except String (List Char))
  | _, [], _ => some (Except.ok [])
  | 0, _ :: _, _ => none
  | fuel + 1, node :: rest, indent =>
    match printNode h node indent with
    | Except.error e => some (Except.error e)
    | Except.ok line =>
      match printChildrenLoop h fuel (h node).children ((indent + 1) % uintRange) with
      | none => none
      | some (Except.error e) => some (Except.error e)
      | some (Except.ok below) =>
        match printChildrenLoop h fuel rest indent with
        | none => none
        | some (Except.error e) => some (Except.error e)
        | some (Except.ok after) => some (Except.ok (line ++ below ++ after))

/-- `printChildren` (lines 379-412) called on the node `parent`. -/
def printChildren (h : Heap) (fuel : Nat) (parent : NodePtr) (indent : Nat) :
    Option (Except String (List Char)) :=
  printChildrenLoop h fuel (h parent).children indent

/-- `printDocument` (lines 414-420): what is written to `std::cout`. -/
def printDocument (h : Heap) (fuel : Nat) (doc : NodePtr) : Option (Except String (List Char)) :=
  match printChildren h fuel doc 0 with
  | none => none
  | some (Except.error e) => some (Except.error e)
  | some (Except.ok out) => some (Except.ok ("#document".toList ++ ['\n'] ++ out))

/-- A node of the data model as the printer sees it: a Document, an Element with its
name and sub-kind, or a Text with its content. -/
inductive NodeView where
  | document
  | element (name : List Char) (kind : ElementType)
  | text (content : List Char)
  deriving DecidableEq, Repr

/-- The node of the data model that a node object is: a `BBDocument`, `BBElement` or
`BBText` object with the node type its constructor sets (lines 167, 150 and 123);
`none` for any other object. -/
def viewOf (n : BBNode) : Option NodeView :=
  match n.cls, n.nodeType with
  | NodeClass.BBDocument, NodeType.DOCUMENT => some NodeView.document
  | NodeClass.BBElement, NodeType.ELEMENT => some (NodeView.element n.name n.elementType)
  | NodeClass.BBText, NodeType.TEXT => some (NodeView.text n.name)
  | _, _ => none

/-- A sequence of sibling subtrees as a value: the first node, the subtrees below it,
and the siblings after it. -/
inductive Forest where
  | nil
  | cons (node : NodeView) (below : Forest) (after : Forest)
  deriving DecidableEq, Repr

/-- The tree of the data model under the nodes `nodes` of the heap, read off along the
child sequences; `none` when `fuel` does not cover it (in particular on a cycle) or
when an object is no node of the data model. -/
def forestOf (h : Heap) : Nat → List NodePtr → Option Forest
  | _, [] => some Forest.nil
  | 0, _ :: _ => none
  | fuel + 1, node :: rest =>
    match viewOf (h node), forestOf h fuel (h node).children, forestOf h fuel rest with
    | some view, some below, some after => some (Forest.cons view below after)
    | _, _, _ => none

/-- The number of levels of a forest. -/
def Forest.height : Forest → Nat
  | Forest.nil => 0
  | Forest.cons _ below after => max (below.height + 1) after.height

/-- `n` copies of `x`, one after the other. -/
def copies (x : List Char) : Nat → List Char
  | 0 => []
  | n + 1 => x ++ copies x n

/-- The line of a node at depth `d` as the specification words it: `d` copies of
`|   `, then `|-- `, then `[name]` for a non-CLOSING Element, `[/name]` for a CLOSING
Element, `@"content"` for a Text; a Document below the root has no line. -/
def specLine (d : Nat) (node : NodeView) : List Char :=
  match node with
  | NodeView.element name kind =>
    copies "|   ".toList d ++ "|-- ".toList ++
      (if kind = ElementType.CLOSING then "[/".toList ++ name ++ "]".toList
        else "[".toList ++ name ++ "]".toList) ++ ['\n']
  | NodeView.text content =>
    copies "|   ".toList d ++ "|-- ".toList ++ "@\"".toList ++ content ++ "\"".toList ++ ['\n']
  | NodeView.document => []

/-- The lines of a forest whose roots are at depth `d`, in depth-first pre-order. -/
def specLines : Nat → Forest → List Char
  | _, Forest.nil => []
  | d, Forest.cons node below after =>
    specLine d node ++ specLines (d + 1) below ++ specLines d after

/-- A heap for the example of the specification: the Document 0 with the children
Element `b` (node 1, SIMPLE, with the Text `bold`, node 2, as its child) and Element `b`
(node 3, CLOSING). -/
def exampleHeap : Heap := fun i =>
  match i with
  | 0 => { cls := NodeClass.BBDocument, name := "#document".toList,
           nodeType := NodeType.DOCUMENT, parent := none, children := [1, 3],
           elementType := ElementType.SIMPLE }
  | 1 => { cls := NodeClass.BBElement, name := ['b'], nodeType := NodeType.ELEMENT,
           parent := some 0, children := [2], elementType := ElementType.SIMPLE }
  | 2 => { cls := NodeClass.BBText, name := "bold".toList, nodeType := NodeType.TEXT,
           parent := some 1, children := [], elementType := ElementType.SIMPLE }
  | 3 => { cls := NodeClass.BBElement, name := ['b'], nodeType := NodeType.ELEMENT,
           parent := some 0, children := [], elementType := ElementType.CLOSING }
  | _ => { cls := NodeClass.BBText, name := [], nodeType := NodeType.TEXT,
           parent := none, children := [], elementType := ElementType.SIMPLE }

/-! ## Reading the input -/

theorem deref_of_lt (s : List Char) (i : Nat) (h : i < s.length) :
    deref s i = s.get ⟨i, h⟩ := by
  simp [deref, List.getD_eq_getElem?_getD, List.getElem?_eq_getElem h]

theorem deref_of_le (s : List Char) (i : Nat) (h : s.length ≤ i) :
    deref s i = Char.ofNat 0 := by
  simp [deref, List.getD_eq_getElem?_getD, List.getElem?_eq_none h]

theorem lt_of_deref_ne (s : List Char) (i : Nat) (h : deref s i ≠ Char.ofNat 0) :
    i < s.length := by
  by_contra hlt
  exact h (deref_of_le s i (Nat.le_of_not_lt hlt))

theorem deref_mid (pre mid post : List Char) (k : Nat) (h1 : pre.length ≤ k)
    (h2 : k < pre.length + mid.length) : deref (pre ++ mid ++ post) k ∈ mid := by
  obtain ⟨i, rfl⟩ := Nat.exists_eq_add_of_le h1
  have hi : i < mid.length := by omega
  have : deref (pre ++ mid ++ post) (pre.length + i) = mid.get ⟨i, hi⟩ := by
    simp [deref, List.getD_eq_getElem?_getD, List.append_assoc, List.getElem?_append_right,
      List.getElem?_append_left hi, List.getElem?_eq_getElem hi]
  rw [this]
  exact List.get_mem _ _ _

theorem deref_after (pre : List Char) (c : Char) (post : List Char) :
    deref (pre ++ c :: post) pre.length = c := by
  have h : pre.length < (pre ++ c :: post).length := by simp
  rw [deref_of_lt _ _ h]
  simp [List.get_eq_getElem, List.getElem_append_right]

theorem substr_mid (pre mid post : List Char) :
    substr (pre ++ mid ++ post) pre.length (pre.length + mid.length) = mid := by
  simp [substr, List.append_assoc, List.drop_left]

theorem substr_self (s : List Char) (i : Nat) : substr s i i = [] := by
  simp [substr]

theorem substr_succ (s : List Char) (i j : Nat) (hij : i < j) (hi : i < s.length) :
    substr s i j = deref s i :: substr s (i + 1) j := by
  unfold substr
  rw [List.drop_eq_getElem_cons hi, deref_of_lt s i hi]
  obtain ⟨k, rfl⟩ := Nat.exists_eq_add_of_lt hij
  have e1 : i + k + 1 - i = k + 1 := by omega
  have e2 : i + k + 1 - (i + 1) = k := by omega
  rw [e1, e2, List.take_succ_cons]
  rfl

/-! ## The two scanning loops -/

theorem parseTextLoop_eq_some (s : List Char) (n it j : Nat) (h1 : it ≤ j) (h2 : j < it + n)
    (hj : deref s j = '[') (hlt : ∀ i, it ≤ i → i < j → deref s i ≠ '[') :
    parseTextLoop s n it = some j := by
  induction n generalizing it with
  | zero => omega
  | succ n ih =>
    unfold parseTextLoop
    by_cases hit : deref s it = '['
    · have : ¬ it < j := fun h => hlt it (Nat.le_refl _) h hit
      have : it = j := by omega
      rw [if_pos hit, this]
    · have hne : it ≠ j := fun h => hit (h ▸ hj)
      rw [if_neg hit]
      exact ih (it + 1) (by omega) (by omega) (fun i hi hi' => hlt i (by omega) hi')

theorem parseTextLoop_eq_none (s : List Char) (n it : Nat)
    (hlt : ∀ i, it ≤ i → i < it + n → deref s i ≠ '[') :
    parseTextLoop s n it = none := by
  induction n generalizing it with
  | zero => rfl
  | succ n ih =>
    unfold parseTextLoop
    rw [if_neg (hlt it (Nat.le_refl _) (by omega))]
    exact ih (it + 1) (fun i hi hi' => hlt i (by omega) (by omega))

theorem parseTextLoop_some_spec (s : List Char) (n it j : Nat)
    (h : parseTextLoop s n it = some j) :
    it ≤ j ∧ j < it + n ∧ deref s j = '[' ∧ ∀ i, it ≤ i → i < j → deref s i ≠ '[' := by
  induction n generalizing it with
  | zero => simp [parseTextLoop] at h
  | succ n ih =>
    unfold parseTextLoop at h
    by_cases hit : deref s it = '['
    · rw [if_pos hit] at h
      have : it = j := Option.some.inj h
      subst this
      exact ⟨Nat.le_refl _, by omega, hit, fun i hi hi' => by omega⟩
    · rw [if_neg hit] at h
      obtain ⟨a, b, c, d⟩ := ih (it + 1) h
      refine ⟨by omega, by omega, c, fun i hi hi' => ?_⟩
      by_cases e : i = it
      · rw [e]; exact hit
      · exact d i (by omega) hi'

theorem parseTextLoop_none_spec (s : List Char) (n it : Nat)
    (h : parseTextLoop s n it = none) :
    ∀ i, it ≤ i → i < it + n → deref s i ≠ '[' := by
  induction n generalizing it with
  | zero => intro i hi hi'; omega
  | succ n ih =>
    unfold parseTextLoop at h
    by_cases hit : deref s it = '['
    · rw [if_pos hit] at h; exact absurd h (by simp)
    · rw [if_neg hit] at h
      intro i hi hi'
      by_cases e : i = it
      · rw [e]; exact hit
      · exact ih (it + 1) h i (by omega) (by omega)

theorem isalnum_zero : isalnum (Char.ofNat 0) = false := by decide

theorem parseElementNameLoop_eq_some (s : List Char) (n it j : Nat) (str : List Char)
    (h1 : it ≤ j) (h2 : j < it + n) (hj : isalnum (deref s j) = false)
    (hlt : ∀ i, it ≤ i → i < j → isalnum (deref s i) = true) :
    parseElementNameLoop s n it str = some (j, str ++ substr s it j) := by
  induction n generalizing it str with
  | zero => omega
  | succ n ih =>
    unfold parseElementNameLoop
    by_cases hit : isalnum (deref s it) = true
    · have hne : it ≠ j := fun h => by rw [h, hj] at hit; exact absurd hit (by simp)
      have hlen : it < s.length :=
        lt_of_deref_ne s it (fun h => by rw [h, isalnum_zero] at hit; exact absurd hit (by simp))
      rw [if_pos hit, ih (it + 1) _ (by omega) (by omega) (fun i hi hi' => hlt i (by omega) hi'),
        substr_succ s it j (by omega) hlen]
      simp
    · have : ¬ it < j := fun h => hit (hlt it (Nat.le_refl _) h)
      have : it = j := by omega
      rw [if_neg hit, this, substr_self]
      simp

theorem parseElementNameLoop_eq_none (s : List Char) (n it : Nat) (str : List Char)
    (hlt : ∀ i, it ≤ i → i < it + n → isalnum (deref s i) = true) :
    parseElementNameLoop s n it str = none := by
  induction n generalizing it str with
  | zero => rfl
  | succ n ih =>
    unfold parseElementNameLoop
    rw [if_pos (hlt it (Nat.le_refl _) (by omega))]
    exact ih (it + 1) _ (fun i hi hi' => hlt i (by omega) (by omega))

theorem parseElementNameLoop_some_spec (s : List Char) (n it j : Nat) (str str' : List Char)
    (h : parseElementNameLoop s n it str = some (j, str')) :
    it ≤ j ∧ j < it + n ∧ isalnum (deref s j) = false ∧
      (∀ i, it ≤ i → i < j → isalnum (deref s i) = true) ∧ str' = str ++ substr s it j := by
  induction n generalizing it str with
  | zero => simp [parseElementNameLoop] at h
  | succ n ih =>
    unfold parseElementNameLoop at h
    by_cases hit : isalnum (deref s it) = true
    · rw [if_pos hit] at h
      obtain ⟨a, b, c, d, e⟩ := ih (it + 1) _ h
      have hlen : it < s.length :=
        lt_of_deref_ne s it (fun h => by rw [h, isalnum_zero] at hit; exact absurd hit (by simp))
      refine ⟨by omega, by omega, c, fun i hi hi' => ?_, ?_⟩
      · by_cases e : i = it
        · rw [e]; exact hit
        · exact d i (by omega) hi'
      · rw [e, substr_succ s it j (by omega) hlen]
        simp
    · rw [if_neg hit] at h
      have hh := Option.some.inj h
      have e1 : it = j := congrArg Prod.fst hh
      have e2 : str = str' := congrArg Prod.snd hh
      subst e1
      refine ⟨Nat.le_refl _, by omega, by simpa using hit, fun i hi hi' => by omega, ?_⟩
      rw [substr_self, ← e2]
      simp

/-! ## Bounds on the iterators returned -/

theorem parseText_snd_bounds (s : List Char) (begin endPos : Nat) (h : begin < endPos) :
    begin < (parseText s begin endPos).2 ∧ (parseText s begin endPos).2 ≤ endPos := by
  unfold parseText
  cases hl : parseTextLoop s (endPos - begin) begin with
  | none => simp [h, Nat.le_refl]
  | some j =>
    obtain ⟨a, b, _, _⟩ := parseTextLoop_some_spec s _ _ _ hl
    by_cases e : j = begin
    · simp [e, h]
    · simp only [Option.getD_some, if_neg e]
      omega

theorem parseElementName_fst_bounds (s : List Char) (begin endPos : Nat) (buf : List Char) :
    begin ≤ (parseElementName s begin endPos buf).1 ∧
      (begin ≤ endPos → (parseElementName s begin endPos buf).1 ≤ endPos) := by
  unfold parseElementName
  cases hl : parseElementNameLoop s (endPos - begin) begin [] with
  | none => exact ⟨Nat.le_refl _, fun h => h⟩
  | some r =>
    obtain ⟨j, str⟩ := r
    obtain ⟨a, b, _, _, _⟩ := parseElementNameLoop_some_spec s _ _ _ _ _ hl
    exact ⟨a, fun h => by simp only; omega⟩

theorem parseElementName_nonempty_lt (s : List Char) (begin endPos : Nat)
    (h : (parseElementName s begin endPos []).2 ≠ []) :
    (parseElementName s begin endPos []).1 < endPos := by
  unfold parseElementName at h ⊢
  cases hl : parseElementNameLoop s (endPos - begin) begin [] with
  | none => rw [hl] at h; exact absurd rfl h
  | some r =>
    obtain ⟨j, str⟩ := r
    obtain ⟨a, b, _, _, _⟩ := parseElementNameLoop_some_spec s _ _ _ _ _ hl
    simp only
    omega

theorem parseElement_eq (s : List Char) (begin endPos : Nat) :
    parseElement s begin endPos =
      if (parseElementName s (nameStartOf s begin) endPos []).2 = [] then
        ([BuilderCall.newText [deref s begin]],
          (parseElementName s (nameStartOf s begin) endPos []).1)
      else if deref s (begin + 1) = '/' then
        ([BuilderCall.newClosingElement (parseElementName s (nameStartOf s begin) endPos []).2],
          (parseElementName s (nameStartOf s begin) endPos []).1 + 1)
      else
        ([BuilderCall.newElement (parseElementName s (nameStartOf s begin) endPos []).2],
          (parseElementName s (nameStartOf s begin) endPos []).1 + 1) := by
  unfold parseElement nameStartOf
  by_cases hc : deref s (begin + 1) = '/' <;> simp [hc, List.isEmpty_iff]

theorem nameStartOf_gt (s : List Char) (begin : Nat) : begin < nameStartOf s begin := by
  unfold nameStartOf
  split <;> omega

theorem nameStartOf_le (s : List Char) (begin : Nat) (h : begin < s.length) :
    nameStartOf s begin ≤ s.length := by
  unfold nameStartOf
  by_cases hc : deref s (begin + 1) = '/'
  · have : begin + 1 < s.length :=
      lt_of_deref_ne s _ (fun h0 => by rw [h0] at hc; exact absurd hc (by decide))
    rw [if_pos hc]
    omega
  · rw [if_neg hc]
    exact h

theorem parseElement_snd_gt (s : List Char) (begin endPos : Nat) :
    begin < (parseElement s begin endPos).2 := by
  rw [parseElement_eq]
  have hs := nameStartOf_gt s begin
  have hb := (parseElementName_fst_bounds s (nameStartOf s begin) endPos []).1
  split
  · simp only; omega
  · split <;> (simp only; omega)

theorem parseElement_snd_le (s : List Char) (begin : Nat) (h : begin < s.length) :
    (parseElement s begin s.length).2 ≤ s.length := by
  rw [parseElement_eq]
  have hb := (parseElementName_fst_bounds s _ s.length []).2 (nameStartOf_le s begin h)
  split
  · exact hb
  · rename_i hne
    have hlt := parseElementName_nonempty_lt s (nameStartOf s begin) s.length hne
    split <;> (simp only; omega)

/-! ## The scanner on inputs given by their shape -/

theorem parseText_run (pre text post : List Char) (hne : text ≠ [])
    (htext : ∀ c ∈ text, c ≠ '[') (hpost : post = [] ∨ ∃ rest, post = '[' :: rest) :
    parseText (pre ++ text ++ post) pre.length (pre ++ text ++ post).length =
      ([BuilderCall.newText text], pre.length + text.length) := by
  have hpos : 0 < text.length := List.length_pos.mpr hne
  have hin : ∀ i, pre.length ≤ i → i < pre.length + text.length →
      deref (pre ++ text ++ post) i ≠ '[' :=
    fun i h1 h2 => htext _ (deref_mid pre text post i h1 h2)
  unfold parseText
  rcases hpost with rfl | ⟨rest, rfl⟩
  · have hn : parseTextLoop (pre ++ text ++ []) ((pre ++ text ++ []).length - pre.length)
        pre.length = none :=
      parseTextLoop_eq_none _ _ _ (fun i h1 h2 => hin i h1 (by simp at h2; omega))
    rw [hn]
    have hl : (pre ++ text ++ []).length = pre.length + text.length := by simp
    simp only [Option.getD_none, if_true, hl]
    rw [substr_mid]
  · have hs : parseTextLoop (pre ++ text ++ '[' :: rest)
        ((pre ++ text ++ '[' :: rest).length - pre.length) pre.length
        = some (pre.length + text.length) := by
      apply parseTextLoop_eq_some _ _ _ _ (by omega) (by simp)
      · have := deref_after (pre ++ text) '[' rest
        simpa using this
      · exact hin
    rw [hs]
    have hne' : pre.length + text.length ≠ pre.length := by omega
    simp only [Option.getD_some, if_neg hne']
    rw [substr_mid]

theorem isalnum_ne_slash (c : Char) (h : isalnum c = true) : c ≠ '/' := by
  intro e
  rw [e] at h
  exact absurd h (by decide)

theorem parseElementName_tag (pre name : List Char) (c : Char) (post : List Char)
    (hname : ∀ x ∈ name, isalnum x = true) (hc : isalnum c = false) :
    parseElementName (pre ++ name ++ c :: post) pre.length (pre ++ name ++ c :: post).length []
      = (pre.length + name.length, name) := by
  unfold parseElementName
  have hs : parseElementNameLoop (pre ++ name ++ c :: post)
      ((pre ++ name ++ c :: post).length - pre.length) pre.length []
      = some (pre.length + name.length,
          [] ++ substr (pre ++ name ++ c :: post) pre.length (pre.length + name.length)) := by
    apply parseElementNameLoop_eq_some _ _ _ _ _ (by omega) (by simp)
    · have := deref_after (pre ++ name) c post
      rw [List.length_append] at this
      rw [this]
      exact hc
    · exact fun i h1 h2 => hname _ (deref_mid pre name (c :: post) i h1 h2)
  rw [hs, substr_mid]
  rfl

theorem parseElement_open (pre name : List Char) (c : Char) (post : List Char)
    (hne : name ≠ []) (hname : ∀ x ∈ name, isalnum x = true) (hc : isalnum c = false) :
    parseElement (pre ++ '[' :: (name ++ c :: post)) pre.length
        (pre ++ '[' :: (name ++ c :: post)).length
      = ([BuilderCall.newElement name], pre.length + name.length + 2) := by
  have e : pre ++ '[' :: (name ++ c :: post) = (pre ++ ['[']) ++ name ++ c :: post := by simp
  have hpos : 0 < name.length := List.length_pos.mpr hne
  have h1 : deref (pre ++ '[' :: (name ++ c :: post)) (pre.length + 1) ≠ '/' := by
    rw [e]
    exact isalnum_ne_slash _ (hname _ (deref_mid (pre ++ ['[']) name (c :: post) _
      (by simp) (by simp; omega)))
  have hst : nameStartOf (pre ++ '[' :: (name ++ c :: post)) pre.length = (pre ++ ['[']).length := by
    unfold nameStartOf
    rw [if_neg h1]
    simp
  have hn := parseElementName_tag (pre ++ ['[']) name c post hname hc
  rw [← e] at hn
  rw [parseElement_eq, hst, hn]
  simp only [if_neg hne, if_neg h1, List.length_append, List.length_singleton]
  congr 1
  omega

theorem parseElement_close (pre name : List Char) (c : Char) (post : List Char)
    (hne : name ≠ []) (hname : ∀ x ∈ name, isalnum x = true) (hc : isalnum c = false) :
    parseElement (pre ++ '[' :: '/' :: (name ++ c :: post)) pre.length
        (pre ++ '[' :: '/' :: (name ++ c :: post)).length
      = ([BuilderCall.newClosingElement name], pre.length + name.length + 3) := by
  have e : pre ++ '[' :: '/' :: (name ++ c :: post) = (pre ++ ['[', '/']) ++ name ++ c :: post := by
    simp
  have h1 : deref (pre ++ '[' :: '/' :: (name ++ c :: post)) (pre.length + 1) = '/' := by
    have := deref_after (pre ++ ['[']) '/' (name ++ c :: post)
    simpa using this
  have hst : nameStartOf (pre ++ '[' :: '/' :: (name ++ c :: post)) pre.length
      = (pre ++ ['[', '/']).length := by
    unfold nameStartOf
    rw [if_pos h1]
    simp
  have hn := parseElementName_tag (pre ++ ['[', '/']) name c post hname hc
  rw [← e] at hn
  rw [parseElement_eq, hst, hn]
  simp only [if_neg hne, if_pos h1, List.length_append, List.length_cons, List.length_nil]
  congr 1
  omega

/-! ## Unfolding the loop of `load` -/

theorem loadLoop_done (s : List Char) (fuel : Nat) (st : LoadState)
    (h : st.current = s.length) : loadLoop s s.length fuel st = some (Except.ok st) := by
  cases fuel <;> simp [loadLoop, h]

theorem loadBody_text (s : List Char) (st : LoadState) (hu : st.bUnknownNodeType = true)
    (hc : deref s st.current ≠ '[') :
    loadBody s s.length st = Except.ok
      { current := (parseText s st.current s.length).2, bUnknownNodeType := true,
        nodeType := NodeType.TEXT, calls := st.calls ++ (parseText s st.current s.length).1 } := by
  simp [loadBody, hu, hc]

theorem loadBody_element (s : List Char) (st : LoadState) (hu : st.bUnknownNodeType = true)
    (hc : deref s st.current = '[') :
    loadBody s s.length st = Except.ok
      { current := (parseElement s st.current s.length).2, bUnknownNodeType := true,
        nodeType := NodeType.ELEMENT,
        calls := st.calls ++ (parseElement s st.current s.length).1 } := by
  have hne : (parseElement s st.current s.length).2 ≠ st.current :=
    Nat.ne_of_gt (parseElement_snd_gt s st.current s.length)
  simp [loadBody, hu, hc, hne]

theorem loadLoop_text (s : List Char) (fuel cur : Nat) (nt : NodeType) (cs out : List BuilderCall)
    (p : Nat) (hlt : cur ≠ s.length) (hc : deref s cur ≠ '[')
    (hp : parseText s cur s.length = (out, p)) :
    loadLoop s s.length (fuel + 1) ⟨cur, true, nt, cs⟩ =
      loadLoop s s.length fuel ⟨p, true, NodeType.TEXT, cs ++ out⟩ := by
  rw [loadLoop, if_neg hlt, loadBody_text s _ rfl hc]
  simp only [hp]

theorem loadLoop_element (s : List Char) (fuel cur : Nat) (nt : NodeType)
    (cs out : List BuilderCall) (p : Nat) (hlt : cur ≠ s.length) (hc : deref s cur = '[')
    (hp : parseElement s cur s.length = (out, p)) :
    loadLoop s s.length (fuel + 1) ⟨cur, true, nt, cs⟩ =
      loadLoop s s.length fuel ⟨p, true, NodeType.ELEMENT, cs ++ out⟩ := by
  rw [loadLoop, if_neg hlt, loadBody_element s _ rfl hc]
  simp only [hp]

theorem loadLoop_text_at (s pre text post : List Char) (hs : s = pre ++ text ++ post)
    (hne : text ≠ []) (htext : ∀ c ∈ text, c ≠ '[')
    (hpost : post = [] ∨ ∃ rest, post = '[' :: rest)
    (fuel : Nat) (nt : NodeType) (cs : List BuilderCall) :
    loadLoop s s.length (fuel + 1) ⟨pre.length, true, nt, cs⟩ =
      loadLoop s s.length fuel
        ⟨pre.length + text.length, true, NodeType.TEXT, cs ++ [BuilderCall.newText text]⟩ := by
  have hpos : 0 < text.length := List.length_pos.mpr hne
  apply loadLoop_text
  · rw [hs, List.length_append, List.length_append]; omega
  · rw [hs]; exact htext _ (deref_mid pre text post _ (Nat.le_refl _) (by omega))
  · rw [hs]; exact parseText_run pre text post hne htext hpost

theorem loadLoop_open_at (s pre name : List Char) (c : Char) (post : List Char)
    (hs : s = pre ++ '[' :: (name ++ c :: post))
    (hne : name ≠ []) (hname : ∀ x ∈ name, isalnum x = true) (hc : isalnum c = false)
    (fuel : Nat) (nt : NodeType) (cs : List BuilderCall) :
    loadLoop s s.length (fuel + 1) ⟨pre.length, true, nt, cs⟩ =
      loadLoop s s.length fuel
        ⟨pre.length + name.length + 2, true, NodeType.ELEMENT,
          cs ++ [BuilderCall.newElement name]⟩ := by
  apply loadLoop_element
  · rw [hs]; simp
  · rw [hs]; exact deref_after pre '[' _
  · rw [hs]; exact parseElement_open pre name c post hne hname hc

theorem loadLoop_close_at (s pre name : List Char) (c : Char) (post : List Char)
    (hs : s = pre ++ '[' :: '/' :: (name ++ c :: post))
    (hne : name ≠ []) (hname : ∀ x ∈ name, isalnum x = true) (hc : isalnum c = false)
    (fuel : Nat) (nt : NodeType) (cs : List BuilderCall) :
    loadLoop s s.length (fuel + 1) ⟨pre.length, true, nt, cs⟩ =
      loadLoop s s.length fuel
        ⟨pre.length + name.length + 3, true, NodeType.ELEMENT,
          cs ++ [BuilderCall.newClosingElement name]⟩ := by
  apply loadLoop_element
  · rw [hs]; simp
  · rw [hs]; exact deref_after pre '[' _
  · rw [hs]; exact parseElement_close pre name c post hne hname hc

theorem isalnum_rbracket : isalnum ']' = false := by decide

theorem isalnum_equals : isalnum '=' = false := by decide

/-! ## Properties of `load` on inputs of a given form -/

/-- C1 (as stated, refuted): the empty input contains no `[`, and `load` makes no
builder call on it, so the Document gets no Text child. -/
theorem load_empty_input_no_call :
    (∀ c ∈ ([] : List Char), c ≠ '[') ∧
      load [] 0 = some (Except.ok []) ∧
      load [] 0 ≠ some (Except.ok [BuilderCall.newText []]) := by
  decide

/-- C1 (amended): for every non-empty input without `[`, `load` finishes after one
iteration of its loop, having made exactly one builder call, `newText` of the whole
input. -/
theorem load_plain_text (s : List Char) (hne : s ≠ []) (hs : ∀ c ∈ s, c ≠ '[')
    (fuel : Nat) (hfuel : 1 ≤ fuel) :
    load s fuel = some (Except.ok [BuilderCall.newText s]) := by
  obtain ⟨k, rfl⟩ := Nat.exists_eq_add_of_le hfuel
  have h1 := loadLoop_text_at s [] s [] (by simp) hne hs (Or.inl rfl) k NodeType.TEXT []
  have h2 := loadLoop_done s k ⟨s.length, true, NodeType.TEXT, [BuilderCall.newText s]⟩ rfl
  unfold load loadInit
  rw [Nat.add_comm 1 k]
  simp only [List.length_nil, Nat.zero_add, List.nil_append] at h1
  rw [h1, h2]
  rfl

theorem load_plain_text_witness :
    load "plain text".toList 1 = some (Except.ok [BuilderCall.newText "plain text".toList]) :=
  load_plain_text "plain text".toList (by decide) (by decide) 1 (by decide)

/-- C2: for every non-empty alphanumeric `name`, `load` of `[name]` finishes after one
iteration of its loop with the scan at the end of the input, having made exactly one
builder call, `newElement(name)`. -/
theorem load_single_tag (name : List Char) (hne : name ≠ [])
    (hname : ∀ x ∈ name, isalnum x = true) (fuel : Nat) (hfuel : 1 ≤ fuel) :
    loadLoop ('[' :: (name ++ [']'])) ('[' :: (name ++ [']'])).length fuel loadInit =
        some (Except.ok ⟨('[' :: (name ++ [']'])).length, true, NodeType.ELEMENT,
          [BuilderCall.newElement name]⟩) ∧
      load ('[' :: (name ++ [']'])) fuel = some (Except.ok [BuilderCall.newElement name]) := by
  obtain ⟨k, rfl⟩ := Nat.exists_eq_add_of_le hfuel
  have h1 := loadLoop_open_at ('[' :: (name ++ [']'])) [] name ']' [] (by simp) hne hname
    isalnum_rbracket k NodeType.TEXT []
  have hl : ('[' :: (name ++ [']'])).length = name.length + 2 := by simp
  have h2 := loadLoop_done ('[' :: (name ++ [']'])) k
    ⟨name.length + 2, true, NodeType.ELEMENT, [BuilderCall.newElement name]⟩ hl.symm
  simp only [List.length_nil, Nat.zero_add, List.nil_append] at h1
  have h3 : loadLoop ('[' :: (name ++ [']'])) ('[' :: (name ++ [']'])).length (1 + k) loadInit =
      some (Except.ok ⟨('[' :: (name ++ [']'])).length, true, NodeType.ELEMENT,
        [BuilderCall.newElement name]⟩) := by
    rw [Nat.add_comm 1 k]
    unfold loadInit
    rw [h1, h2, hl]
  refine ⟨h3, ?_⟩
  unfold load
  rw [h3]
  rfl

theorem load_single_tag_witness :
    loadLoop "[b]".toList 3 1 loadInit =
        some (Except.ok ⟨3, true, NodeType.ELEMENT, [BuilderCall.newElement ['b']]⟩) ∧
      load "[b]".toList 1 = some (Except.ok [BuilderCall.newElement ['b']]) :=
  load_single_tag ['b'] (by decide) (by decide) 1 (by decide)

/-- C3 (as stated, refuted): the empty text contains no `[`, and for `[b][/b]` the calls
of `load` are `newElement(b)` and `newClosingElement(b)` only; no `newText` call is made,
so the Element gets no Text child. -/
theorem load_tag_pair_empty_text :
    (∀ c ∈ ([] : List Char), c ≠ '[') ∧
      load ('[' :: (['b'] ++ ']' :: ([] ++ '[' :: '/' :: (['b'] ++ [']'])))) 7 =
        some (Except.ok [BuilderCall.newElement ['b'], BuilderCall.newClosingElement ['b']]) := by
  decide

theorem load_tag_pair_with_text (name text : List Char) (hne : name ≠ [])
    (hname : ∀ x ∈ name, isalnum x = true) (htne : text ≠ []) (htext : ∀ c ∈ text, c ≠ '[')
    (fuel : Nat) (hfuel : 3 ≤ fuel) :
    load ('[' :: (name ++ ']' :: (text ++ '[' :: '/' :: (name ++ [']'])))) fuel =
      some (Except.ok [BuilderCall.newElement name, BuilderCall.newText text,
        BuilderCall.newClosingElement name]) := by
  obtain ⟨k, rfl⟩ := Nat.exists_eq_add_of_le hfuel
  generalize hs : '[' :: (name ++ ']' :: (text ++ '[' :: '/' :: (name ++ [']']))) = s
  have h1 := loadLoop_open_at s [] name ']' (text ++ '[' :: '/' :: (name ++ [']']))
    (by rw [← hs]; simp) hne hname isalnum_rbracket (k + 2) NodeType.TEXT []
  have h2 := loadLoop_text_at s ('[' :: (name ++ [']'])) text ('[' :: '/' :: (name ++ [']']))
    (by rw [← hs]; simp) htne htext (Or.inr ⟨_, rfl⟩) (k + 1) NodeType.ELEMENT
    [BuilderCall.newElement name]
  have h3 := loadLoop_close_at s ('[' :: (name ++ ']' :: text)) name ']' []
    (by rw [← hs]; simp) hne hname isalnum_rbracket k NodeType.TEXT
    ([BuilderCall.newElement name] ++ [BuilderCall.newText text])
  have hl : s.length = name.length + text.length + name.length + 5 := by
    rw [← hs]; simp; omega
  have e1 : name.length + 2 = ('[' :: (name ++ [']'])).length := by
    simp
  have e2 : ('[' :: (name ++ [']'])).length + text.length
      = ('[' :: (name ++ ']' :: text)).length := by
    simp; omega
  have h4 := loadLoop_done s k
    ⟨('[' :: (name ++ ']' :: text)).length + name.length + 3, true, NodeType.ELEMENT,
      [BuilderCall.newElement name] ++ [BuilderCall.newText text] ++
        [BuilderCall.newClosingElement name]⟩
    (by rw [hl]; simp; omega)
  simp only [List.length_nil, Nat.zero_add, List.nil_append] at h1
  unfold load loadInit
  have e0 : 3 + k = k + 2 + 1 := by omega
  rw [e0, h1, e1, h2, e2, h3, h4]
  rfl

theorem load_tag_pair_without_text (name : List Char) (hne : name ≠ [])
    (hname : ∀ x ∈ name, isalnum x = true) (fuel : Nat) (hfuel : 2 ≤ fuel) :
    load ('[' :: (name ++ ']' :: '[' :: '/' :: (name ++ [']']))) fuel =
      some (Except.ok [BuilderCall.newElement name, BuilderCall.newClosingElement name]) := by
  obtain ⟨k, rfl⟩ := Nat.exists_eq_add_of_le hfuel
  generalize hs : '[' :: (name ++ ']' :: '[' :: '/' :: (name ++ [']'])) = s
  have h1 := loadLoop_open_at s [] name ']' ('[' :: '/' :: (name ++ [']']))
    (by rw [← hs]; simp) hne hname isalnum_rbracket (k + 1) NodeType.TEXT []
  have h2 := loadLoop_close_at s ('[' :: (name ++ [']'])) name ']' []
    (by rw [← hs]; simp) hne hname isalnum_rbracket k NodeType.ELEMENT
    [BuilderCall.newElement name]
  have hl : s.length = name.length + name.length + 5 := by
    rw [← hs]; simp; omega
  have e1 : name.length + 2 = ('[' :: (name ++ [']'])).length := by
    simp
  have h3 := loadLoop_done s k
    ⟨('[' :: (name ++ [']'])).length + name.length + 3, true, NodeType.ELEMENT,
      [BuilderCall.newElement name] ++ [BuilderCall.newClosingElement name]⟩
    (by rw [hl]; simp; omega)
  simp only [List.length_nil, Nat.zero_add, List.nil_append] at h1
  unfold load loadInit
  have e0 : 2 + k = k + 1 + 1 := by omega
  rw [e0, h1, e1, h2, h3]
  rfl

/-- C3 (amended): for every non-empty alphanumeric `name`: for every non-empty `text`
without `[`, `load` of `[name]text[/name]` finishes after three iterations of its loop,
having issued `newElement(name)`, `newText(text)`, `newClosingElement(name)`, in this
order and nothing else; and for the empty text, `load` of `[name][/name]` finishes after
two iterations, having issued `newElement(name)` and `newClosingElement(name)` only. -/
theorem load_tag_pair (name : List Char) (hne : name ≠ [])
    (hname : ∀ x ∈ name, isalnum x = true) :
    (∀ text : List Char, text ≠ [] → (∀ c ∈ text, c ≠ '[') → ∀ fuel, 3 ≤ fuel →
      load ('[' :: (name ++ ']' :: (text ++ '[' :: '/' :: (name ++ [']'])))) fuel =
        some (Except.ok [BuilderCall.newElement name, BuilderCall.newText text,
          BuilderCall.newClosingElement name])) ∧
    (∀ fuel, 2 ≤ fuel →
      load ('[' :: (name ++ ']' :: ([] ++ '[' :: '/' :: (name ++ [']'])))) fuel =
        some (Except.ok [BuilderCall.newElement name, BuilderCall.newClosingElement name])) :=
  ⟨fun text htne htext fuel hfuel =>
      load_tag_pair_with_text name text hne hname htne htext fuel hfuel,
    fun fuel hfuel => load_tag_pair_without_text name hne hname fuel hfuel⟩

theorem load_tag_pair_witness :
    load "[b]bold[/b]".toList 3 =
        some (Except.ok [BuilderCall.newElement ['b'], BuilderCall.newText "bold".toList,
          BuilderCall.newClosingElement ['b']]) ∧
      load "[b][/b]".toList 2 =
        some (Except.ok [BuilderCall.newElement ['b'], BuilderCall.newClosingElement ['b']]) :=
  ⟨(load_tag_pair ['b'] (by decide) (by decide)).1 "bold".toList (by decide) (by decide) 3
      (by decide),
    (load_tag_pair ['b'] (by decide) (by decide)).2 2 (by decide)⟩

/-- C6 (as stated, refuted): on `[quote=User;123]` the calls of `load` are
`newElement(quote)` followed by `newText("User;123]")`: a Text node is created from the
characters after the `=`. -/
theorem load_quote_value_makes_text :
    load "[quote=User;123]".toList 16 =
      some (Except.ok [BuilderCall.newElement "quote".toList,
        BuilderCall.newText "User;123]".toList]) := by
  decide

/-- C6 (amended): for every non-empty alphanumeric `name` and every `payload` without
`[`, `load` of `[name=payload]` issues `newElement(name)` with the bare name and then
`newText(payload])`: only the `=` is dropped. -/
theorem load_tag_with_value (name payload : List Char) (hne : name ≠ [])
    (hname : ∀ x ∈ name, isalnum x = true) (hpay : ∀ c ∈ payload, c ≠ '[')
    (fuel : Nat) (hfuel : 2 ≤ fuel) :
    load ('[' :: (name ++ '=' :: (payload ++ [']']))) fuel =
      some (Except.ok [BuilderCall.newElement name,
        BuilderCall.newText (payload ++ [']'])]) := by
  obtain ⟨k, rfl⟩ := Nat.exists_eq_add_of_le hfuel
  generalize hs : '[' :: (name ++ '=' :: (payload ++ [']'])) = s
  have htext : ∀ c ∈ payload ++ [']'], c ≠ '[' := by
    intro c hc
    rcases List.mem_append.mp hc with h | h
    · exact hpay c h
    · rw [List.mem_singleton.mp h]; decide
  have h1 := loadLoop_open_at s [] name '=' (payload ++ [']'])
    (by rw [← hs]; simp) hne hname isalnum_equals (k + 1) NodeType.TEXT []
  have h2 := loadLoop_text_at s ('[' :: (name ++ ['='])) (payload ++ [']']) []
    (by rw [← hs]; simp) (by simp) htext (Or.inl rfl) k NodeType.ELEMENT
    [BuilderCall.newElement name]
  have hl : s.length = name.length + payload.length + 3 := by
    rw [← hs]; simp; omega
  have e1 : name.length + 2 = ('[' :: (name ++ ['='])).length := by
    simp
  have h3 := loadLoop_done s k
    ⟨('[' :: (name ++ ['='])).length + (payload ++ [']']).length, true, NodeType.TEXT,
      [BuilderCall.newElement name] ++ [BuilderCall.newText (payload ++ [']'])]⟩
    (by rw [hl]; simp; omega)
  simp only [List.length_nil, Nat.zero_add, List.nil_append] at h1
  unfold load loadInit
  have e0 : 2 + k = k + 1 + 1 := by omega
  rw [e0, h1, e1, h2, h3]
  rfl

theorem load_tag_with_value_witness :
    load "[quote=User;123]".toList 2 =
      some (Except.ok [BuilderCall.newElement "quote".toList,
        BuilderCall.newText "User;123]".toList]) :=
  load_tag_with_value "quote".toList "User;123".toList (by decide) (by decide) (by decide) 2
    (by decide)

/-! ## The empty-name fallback and text runs that start at a bracket -/

/-- C4 (the code at the failing input `[/]`): name extraction finds no name, and
`parseElement` makes the single call `newText("[")` but returns the iterator two past
the `[`; `load` goes on with `]`, and the `/` reaches no node.  On `[]`, where no `/`
follows the bracket, the same path returns the iterator one past the `[`. -/
theorem parseElement_empty_closing_tag_skips_slash :
    (parseElementName "[/]".toList (nameStartOf "[/]".toList 0) 3 []).2 = [] ∧
      parseElement "[/]".toList 0 3 = ([BuilderCall.newText ['[']], 2) ∧
      load "[/]".toList 3 =
        some (Except.ok [BuilderCall.newText ['['], BuilderCall.newText [']']]) ∧
      parseElement "[]".toList 0 2 = ([BuilderCall.newText ['[']], 1) := by
  decide

/-- C5 (as stated, refuted): at position 0 of `[b]x` the character is `[`, yet `parseText`
returns the end of the input, not the position it was given, and makes a `newText` call
with the whole input. -/
theorem parseText_at_bracket_example :
    deref "[b]x".toList 0 = '[' ∧
      parseText "[b]x".toList 0 4 = ([BuilderCall.newText "[b]x".toList], 4) := by
  decide

/-- C5 (amended): when the character at the scan position is `[`, `parseText` makes
exactly one `newText` call, with everything from that position to the end of the input
(the `[` included), and returns the end of the input. -/
theorem parseText_at_bracket (s : List Char) (begin endPos : Nat) (hlt : begin < endPos)
    (hc : deref s begin = '[') :
    parseText s begin endPos = ([BuilderCall.newText (substr s begin endPos)], endPos) := by
  have hl : parseTextLoop s (endPos - begin) begin = some begin :=
    parseTextLoop_eq_some s _ begin begin (Nat.le_refl _) (by omega) hc
      (fun i h1 h2 => by omega)
  unfold parseText
  rw [hl]
  simp

theorem parseText_at_bracket_witness :
    parseText "a[b]".toList 1 4 = ([BuilderCall.newText (substr "a[b]".toList 1 4)], 4) :=
  parseText_at_bracket "a[b]".toList 1 4 (by decide) (by decide)

/-! ## Progress and termination of `load` -/

theorem loadBody_progress (s : List Char) (st : LoadState) (hu : st.bUnknownNodeType = true)
    (hlt : st.current < s.length) :
    ∃ st', loadBody s s.length st = Except.ok st' ∧ st.current < st'.current ∧
      st'.current ≤ s.length ∧ st'.bUnknownNodeType = true := by
  by_cases hc : deref s st.current = '['
  · exact ⟨_, loadBody_element s st hu hc, parseElement_snd_gt s _ _,
      parseElement_snd_le s _ hlt, rfl⟩
  · exact ⟨_, loadBody_text s st hu hc, (parseText_snd_bounds s _ _ hlt).1,
      (parseText_snd_bounds s _ _ hlt).2, rfl⟩

theorem LoadReachable.inv (s : List Char) (st : LoadState) (h : LoadReachable s st) :
    st.bUnknownNodeType = true ∧ st.current ≤ s.length := by
  induction h with
  | init => exact ⟨rfl, Nat.zero_le _⟩
  | step st st' _ hne hbody ih =>
    obtain ⟨st'', h1, _, h3, h4⟩ :=
      loadBody_progress s st ih.1 (Nat.lt_of_le_of_ne ih.2 hne)
    rw [h1] at hbody
    have e : st'' = st' := Except.ok.inj hbody
    rw [← e]
    exact ⟨h4, h3⟩

theorem loadLoop_terminates (s : List Char) (fuel : Nat) (st : LoadState)
    (hu : st.bUnknownNodeType = true) (hle : st.current ≤ s.length)
    (hfuel : s.length - st.current ≤ fuel) :
    ∃ st', loadLoop s s.length fuel st = some (Except.ok st') := by
  induction fuel generalizing st with
  | zero =>
    have : st.current = s.length := by omega
    exact ⟨st, loadLoop_done s 0 st this⟩
  | succ fuel ih =>
    by_cases he : st.current = s.length
    · exact ⟨st, loadLoop_done s _ st he⟩
    · obtain ⟨st', h1, h2, h3, h4⟩ :=
        loadBody_progress s st hu (Nat.lt_of_le_of_ne hle he)
      obtain ⟨st'', h5⟩ := ih st' h4 h3 (by omega)
      refine ⟨st'', ?_⟩
      rw [loadLoop, if_neg he, h1]
      exact h5

/-- C7: in every state the loop of `load` can reach, an iteration that starts before the
end of the input ends with the scan position strictly greater and not beyond the end,
and with the node type undetermined again (the branch "nothing was parsed, treat as
text" is not taken); `parseElement` never returns the position it was given; and
`load` returns within `length(input)` iterations, without throwing. -/
theorem load_strictly_advances (s : List Char) :
    (∀ st, LoadReachable s st → st.current ≠ s.length →
      ∃ st', loadBody s s.length st = Except.ok st' ∧ st.current < st'.current ∧
        st'.current ≤ s.length ∧ st'.bUnknownNodeType = true) ∧
    (∀ begin, (parseElement s begin s.length).2 ≠ begin) ∧
    (∀ fuel, s.length ≤ fuel → ∃ calls, load s fuel = some (Except.ok calls)) := by
  refine ⟨fun st hr hne => ?_, fun begin => Nat.ne_of_gt (parseElement_snd_gt s begin _),
    fun fuel hfuel => ?_⟩
  · have hi := LoadReachable.inv s st hr
    exact loadBody_progress s st hi.1 (Nat.lt_of_le_of_ne hi.2 hne)
  · obtain ⟨st', h⟩ := loadLoop_terminates s fuel loadInit rfl (Nat.zero_le _)
      (by simp [loadInit]; exact hfuel)
    exact ⟨st'.calls, by unfold load; rw [h]; rfl⟩

/-! ## Attaching nodes -/

theorem appendChild_children (h : Heap) (parent child i : NodePtr) :
    ((appendChild h parent child) i).children =
      if i = parent then (h i).children ++ [child] else (h i).children := by
  unfold appendChild
  by_cases h1 : i = child
  · subst h1
    by_cases h2 : i = parent
    · subst h2; simp
    · simp [h2]
  · by_cases h2 : i = parent
    · subst h2; simp [h1]
    · simp [h1, h2]

theorem appendChild_parent (h : Heap) (parent child i : NodePtr) :
    ((appendChild h parent child) i).parent =
      if i = child then some parent else (h i).parent := by
  unfold appendChild
  by_cases h1 : i = child
  · subst h1
    by_cases h2 : i = parent
    · subst h2; simp
    · simp [h2]
  · by_cases h2 : i = parent
    · subst h2; simp [h1]
    · simp [h1, h2]

/-- C8 (as stated, refuted): node 2 is attached to node 0 and then to node 1.  The second
call goes through: node 1 gets node 2 as a child, the parent reference of node 2 is
changed to node 1, and node 0 still holds node 2. -/
theorem appendChild_second_parent_example :
    ((appendChild freshHeap 0 2) 2).parent = some 0 ∧
      ((appendChild freshHeap 0 2) 1).children = [] ∧
      ((appendChild (appendChild freshHeap 0 2) 1 2) 1).children = [2] ∧
      ((appendChild (appendChild freshHeap 0 2) 1 2) 2).parent = some 1 ∧
      ((appendChild (appendChild freshHeap 0 2) 1 2) 0).children = [2] := by
  decide

/-- C8 (amended): `appendChild` has no failure case.  When `child` already has a
different parent `old`, the call still appends `child` to the child sequence of `parent`
and sets the parent reference of `child` to `parent`; the child sequence of `old` is
unchanged, so it still holds `child` if it did before. -/
theorem appendChild_already_attached (h : Heap) (parent child old : NodePtr)
    (hold : (h child).parent = some old) (hne : old ≠ parent) :
    ((appendChild h parent child) parent).children = (h parent).children ++ [child] ∧
      ((appendChild h parent child) child).parent = some parent ∧
      ((appendChild h parent child) child).parent ≠ (h child).parent ∧
      ((appendChild h parent child) old).children = (h old).children := by
  refine ⟨?_, ?_, ?_, ?_⟩
  · rw [appendChild_children, if_pos rfl]
  · rw [appendChild_parent, if_pos rfl]
  · rw [appendChild_parent, if_pos rfl, hold]
    exact fun e => hne (Option.some.inj e).symm
  · rw [appendChild_children, if_neg hne]

theorem appendChild_already_attached_witness :
    ((appendChild (appendChild freshHeap 0 2) 1 2) 1).children
        = ((appendChild freshHeap 0 2) 1).children ++ [2] ∧
      ((appendChild (appendChild freshHeap 0 2) 1 2) 2).parent = some 1 ∧
      ((appendChild (appendChild freshHeap 0 2) 1 2) 2).parent
        ≠ ((appendChild freshHeap 0 2) 2).parent ∧
      ((appendChild (appendChild freshHeap 0 2) 1 2) 0).children
        = ((appendChild freshHeap 0 2) 0).children :=
  appendChild_already_attached (appendChild freshHeap 0 2) 1 2 0 (by decide) (by decide)

/-! ## The tree shape -/

theorem ancestor_succ (h : Heap) (k : Nat) (n : NodePtr) :
    ancestor h (k + 1) n = (h n).parent.bind (ancestor h k) := by
  rw [ancestor]
  cases (h n).parent <;> rfl

theorem ancestor_add (h : Heap) (j k : Nat) (n : NodePtr) :
    ancestor h (j + k) n = (ancestor h j n).bind (ancestor h k) := by
  induction j generalizing n with
  | zero => simp [ancestor]
  | succ j ih =>
    rw [Nat.add_right_comm, ancestor_succ, ancestor_succ]
    cases (h n).parent with
    | none => rfl
    | some q => simp [ih]

theorem ancestor_appendChild_of_avoid (h : Heap) (parent child : NodePtr) (k : Nat)
    (n : NodePtr) (hav : ∀ j, j < k → ancestor (appendChild h parent child) j n ≠ some child) :
    ancestor (appendChild h parent child) k n = ancestor h k n := by
  induction k generalizing n with
  | zero => rfl
  | succ k ih =>
    have hn : n ≠ child := fun e => hav 0 (Nat.succ_pos _) (by rw [e]; rfl)
    rw [ancestor_succ, ancestor_succ, appendChild_parent, if_neg hn]
    cases hq : (h n).parent with
    | none => rfl
    | some q =>
      simp only [Option.some_bind]
      apply ih
      intro j hj
      have := hav (j + 1) (by omega)
      rw [ancestor_succ, appendChild_parent, if_neg hn, hq] at this
      exact this

theorem ancestor_appendChild_chain (h : Heap) (parent child : NodePtr)
    (hav : ∀ k, ancestor h k parent ≠ some child) (k : Nat) :
    ancestor (appendChild h parent child) k parent = ancestor h k parent := by
  induction k using Nat.strong_induction_on with
  | _ k ih =>
    apply ancestor_appendChild_of_avoid
    intro j hj
    rw [ih j hj]
    exact hav j

theorem Fresh.treeShape (h : Heap) (hf : Fresh h) : TreeShape h where
  nodup := fun p => by rw [(hf p).2]; exact List.nodup_nil
  unique := fun p q c hp _ => by rw [(hf p).2] at hp; exact absurd hp (List.not_mem_nil c)
  parent_iff := fun p c => by
    rw [(hf p).2, (hf c).1]
    simp
  acyclic := fun n k hk => by
    obtain ⟨k, rfl⟩ := Nat.exists_eq_succ_of_ne_zero (Nat.pos_iff_ne_zero.mp hk)
    rw [Nat.succ_eq_add_one, ancestor_succ, (hf n).1]
    simp

theorem treeShape_appendChild (h : Heap) (parent child : NodePtr) (ts : TreeShape h)
    (hroot : (h child).parent = none) (hav : ∀ k, ancestor h k parent ≠ some child) :
    TreeShape (appendChild h parent child) := by
  have hnotin : ∀ p, child ∉ (h p).children := fun p hin => by
    have := (ts.parent_iff p child).mp hin
    rw [hroot] at this
    exact absurd this (by simp)
  have hpi : ∀ p c, c ∈ ((appendChild h parent child) p).children ↔
      ((appendChild h parent child) c).parent = some p := by
    intro p c
    rw [appendChild_children, appendChild_parent]
    by_cases hc : c = child
    · subst hc
      rw [if_pos rfl]
      by_cases hp : p = parent
      · subst hp
        simp
      · rw [if_neg hp]
        constructor
        · exact fun hin => absurd hin (hnotin p)
        · exact fun e => absurd (Option.some.inj e).symm hp
    · rw [if_neg hc, ← ts.parent_iff p c]
      by_cases hp : p = parent
      · rw [if_pos hp, List.mem_append, List.mem_singleton]
        exact ⟨fun hh => hh.resolve_right hc, Or.inl⟩
      · rw [if_neg hp]
  refine ⟨?_, ?_, hpi, ?_⟩
  · intro p
    rw [appendChild_children]
    by_cases hp : p = parent
    · rw [if_pos hp]
      exact List.Nodup.append (ts.nodup p) (List.nodup_singleton child)
        (by
          intro a ha hb
          rw [List.mem_singleton.mp hb] at ha
          exact hnotin p ha)
    · rw [if_neg hp]
      exact ts.nodup p
  · intro p q c hp hq
    have e1 := (hpi p c).mp hp
    have e2 := (hpi q c).mp hq
    rw [e1] at e2
    exact Option.some.inj e2
  · intro n k hk hcyc
    by_cases hpass : ∃ j, j < k ∧ ancestor (appendChild h parent child) j n = some child
    · obtain ⟨j, _, hj⟩ := hpass
      have h1 : ancestor (appendChild h parent child) (j + k) n
          = ancestor (appendChild h parent child) k child := by
        rw [ancestor_add, hj]; rfl
      have h2 : ancestor (appendChild h parent child) (k + j) n = some child := by
        rw [ancestor_add, hcyc]; exact hj
      rw [Nat.add_comm k j, h1] at h2
      obtain ⟨k', rfl⟩ := Nat.exists_eq_succ_of_ne_zero (Nat.pos_iff_ne_zero.mp hk)
      rw [Nat.succ_eq_add_one, ancestor_succ, appendChild_parent, if_pos rfl] at h2
      simp only [Option.some_bind] at h2
      rw [ancestor_appendChild_chain h parent child hav] at h2
      exact hav k' h2
    · have hno : ∀ j, j < k → ancestor (appendChild h parent child) j n ≠ some child :=
        fun j hj e => hpass ⟨j, hj, e⟩
      rw [ancestor_appendChild_of_avoid h parent child k n hno] at hcyc
      exact ts.acyclic n k hk hcyc

/-- C9 (as stated, refuted): from fresh nodes, attaching node 2 to node 0 and then to
node 1 leaves node 2 in the child sequences of both, so the heap reached is not a tree;
and attaching node 0 to itself makes it its own parent. -/
theorem appendChild_breaks_tree_shape :
    Fresh freshHeap ∧
      HeapReachable freshHeap (appendChild (appendChild freshHeap 0 2) 1 2) ∧
      ¬ TreeShape (appendChild (appendChild freshHeap 0 2) 1 2) ∧
      HeapReachable freshHeap (appendChild freshHeap 0 0) ∧
      ancestor (appendChild freshHeap 0 0) 1 0 = some 0 := by
  refine ⟨fun _ => ⟨rfl, rfl⟩, ?_, ?_, ?_, by decide⟩
  · exact HeapReachable.step _ 1 2 (HeapReachable.step _ 0 2 HeapReachable.refl)
  · intro ts
    have := ts.unique 0 1 2 (by decide) (by decide)
    exact absurd this (by decide)
  · exact HeapReachable.step _ 0 0 HeapReachable.refl

/-- C9 (amended): in every state reached from freshly created nodes by `appendChild`
calls each of which attaches a node that has no parent yet and is neither the new parent
nor one of its ancestors, every node occurs at most once over all child sequences, the
node whose child sequence holds it is exactly its parent reference, and no node is its
own ancestor. -/
theorem attach_preserves_tree_shape (h0 h : Heap) (hf : Fresh h0)
    (hr : AttachReachable h0 h) : TreeShape h := by
  induction hr with
  | refl => exact Fresh.treeShape h0 hf
  | step h parent child _ hroot hav ih => exact treeShape_appendChild h parent child ih hroot hav

theorem attach_preserves_tree_shape_witness :
    TreeShape (appendChild (appendChild freshHeap 0 1) 1 2) :=
  attach_preserves_tree_shape freshHeap _ (fun _ => ⟨rfl, rfl⟩)
    (AttachReachable.step _ 1 2
      (AttachReachable.step _ 0 1 AttachReachable.refl rfl
        (fun k => by cases k <;> simp [ancestor, freshHeap]))
      (by decide)
      (fun k => by
        rcases k with _ | _ | k <;>
          simp [ancestor, appendChild_parent, freshHeap]))

/-! ## Downcasts -/

/-- C10: for a node `n` and a requested class `V` among `BBElement` and `BBText`,
`downCast` with `bThrowOnFail = true` returns `n` when `n` is a `V` and throws
`std::invalid_argument` when it is not; with `bThrowOnFail = false` it never throws and
returns `n` when `n` is a `V` and the null pointer otherwise. -/
theorem downCast_spec (h : Heap) (n : NodePtr) (V : NodeClass)
    (hV : V = NodeClass.BBElement ∨ V = NodeClass.BBText) :
    downCast h n V true =
        (if (h n).cls = V then Except.ok (some n)
          else Except.error "Cannot downcast, object is not correct type") ∧
      downCast h n V false = Except.ok (if (h n).cls = V then some n else none) := by
  have hV' : V ≠ NodeClass.BBNode := by
    rcases hV with rfl | rfl <;> decide
  unfold downCast cast dynamicPointerCast derivesFrom
  by_cases hc : (h n).cls = V <;> simp [hc, hV']

theorem downCast_spec_witness :
    downCast (appendChild freshHeap 0 1) 1 NodeClass.BBText true =
        (if ((appendChild freshHeap 0 1) 1).cls = NodeClass.BBText then Except.ok (some 1)
          else Except.error "Cannot downcast, object is not correct type") ∧
      downCast (appendChild freshHeap 0 1) 1 NodeClass.BBText false =
        Except.ok (if ((appendChild freshHeap 0 1) 1).cls = NodeClass.BBText then some 1
          else none) :=
  downCast_spec (appendChild freshHeap 0 1) 1 NodeClass.BBText (Or.inr rfl)

/-! ## No error from the scan loop -/

theorem loadLoop_reachable (s : List Char) (fuel : Nat) (st st' : LoadState)
    (hr : LoadReachable s st) (h : loadLoop s s.length fuel st = some (Except.ok st')) :
    LoadReachable s st' ∧ st'.current = s.length := by
  induction fuel generalizing st with
  | zero =>
    unfold loadLoop at h
    by_cases he : st.current = s.length
    · rw [if_pos he] at h
      have e : st = st' := Except.ok.inj (Option.some.inj h)
      rw [← e]; exact ⟨hr, he⟩
    · rw [if_neg he] at h; exact absurd h (by simp)
  | succ fuel ih =>
    unfold loadLoop at h
    by_cases he : st.current = s.length
    · rw [if_pos he] at h
      have e : st = st' := Except.ok.inj (Option.some.inj h)
      rw [← e]; exact ⟨hr, he⟩
    · rw [if_neg he] at h
      cases hb : loadBody s s.length st with
      | error e => rw [hb] at h; simp at h
      | ok st1 =>
        rw [hb] at h
        exact ih st1 (LoadReachable.step st st1 hr he hb) h

theorem loadLoop_no_error (s : List Char) (fuel : Nat) (st : LoadState)
    (hu : st.bUnknownNodeType = true) (hle : st.current ≤ s.length) (e : String) :
    loadLoop s s.length fuel st ≠ some (Except.error e) := by
  induction fuel generalizing st with
  | zero =>
    unfold loadLoop
    split <;> simp
  | succ fuel ih =>
    unfold loadLoop
    by_cases he : st.current = s.length
    · rw [if_pos he]; simp
    · rw [if_neg he]
      obtain ⟨st1, h1, _, h3, h4⟩ := loadBody_progress s st hu (Nat.lt_of_le_of_ne hle he)
      rw [h1]
      exact ih st1 h4 h3

/-- C11: for every input, in every state the scan loop of `load` can reach the node type
is undetermined on entry to the body, so the hypothesis switched on is the `ELEMENT` or
`TEXT` just assigned and the body does not throw; `load` yields the error
"Unknown node type" for no input and no bound on the iterations, and returns normally
within `length(input)` iterations. -/
theorem load_raises_no_error (s : List Char) :
    (∀ st, LoadReachable s st → st.bUnknownNodeType = true) ∧
    (∀ st, LoadReachable s st → st.current ≠ s.length →
      ∃ st', loadBody s s.length st = Except.ok st' ∧
        (st'.nodeType = NodeType.TEXT ∨ st'.nodeType = NodeType.ELEMENT)) ∧
    (∀ fuel e, load s fuel ≠ some (Except.error e)) ∧
    (∀ fuel, s.length ≤ fuel → ∃ calls, load s fuel = some (Except.ok calls)) := by
  refine ⟨fun st hr => (LoadReachable.inv s st hr).1, fun st hr hne => ?_,
    fun fuel e => ?_, fun fuel hfuel => ?_⟩
  · have hi := LoadReachable.inv s st hr
    by_cases hc : deref s st.current = '['
    · exact ⟨_, loadBody_element s st hi.1 hc, Or.inr rfl⟩
    · exact ⟨_, loadBody_text s st hi.1 hc, Or.inl rfl⟩
  · unfold load
    intro h
    cases hl : loadLoop s s.length fuel loadInit with
    | none => rw [hl] at h; simp at h
    | some r =>
      cases r with
      | error e' => exact loadLoop_no_error s fuel loadInit rfl (Nat.zero_le _) e' hl
      | ok st' => rw [hl] at h; simp [Except.map] at h
  · obtain ⟨st', h⟩ := loadLoop_terminates s fuel loadInit rfl (Nat.zero_le _)
      (by simp [loadInit]; exact hfuel)
    exact ⟨st'.calls, by unfold load; rw [h]; rfl⟩

/-! ## The effect of `appendChild` -/

theorem appendChild_fields (h : Heap) (parent child i : NodePtr) :
    ((appendChild h parent child) i).name = (h i).name ∧
      ((appendChild h parent child) i).cls = (h i).cls ∧
      ((appendChild h parent child) i).nodeType = (h i).nodeType ∧
      ((appendChild h parent child) i).elementType = (h i).elementType := by
  unfold appendChild
  by_cases h1 : i = child
  · subst h1
    by_cases h2 : i = parent
    · subst h2; simp
    · simp [h2]
  · by_cases h2 : i = parent
    · subst h2; simp [h1]
    · simp [h1, h2]

/-- C12: `appendChild(parent, child)` makes the child sequence of `parent` its previous
child sequence followed by `child`, sets the parent reference of `child` to `parent`,
changes the name, class, node type and element sub-kind of no node, the child sequence
of no node other than `parent`, and the parent reference of no node other than
`child`. -/
theorem appendChild_effect (h : Heap) (parent child : NodePtr) :
    ((appendChild h parent child) parent).children = (h parent).children ++ [child] ∧
      ((appendChild h parent child) child).parent = some parent ∧
      (∀ i, ((appendChild h parent child) i).name = (h i).name ∧
        ((appendChild h parent child) i).cls = (h i).cls ∧
        ((appendChild h parent child) i).nodeType = (h i).nodeType ∧
        ((appendChild h parent child) i).elementType = (h i).elementType) ∧
      (∀ i, i ≠ parent → ((appendChild h parent child) i).children = (h i).children) ∧
      (∀ i, i ≠ child → ((appendChild h parent child) i).parent = (h i).parent) := by
  refine ⟨?_, ?_, fun i => appendChild_fields h parent child i, fun i hi => ?_, fun i hi => ?_⟩
  · rw [appendChild_children, if_pos rfl]
  · rw [appendChild_parent, if_pos rfl]
  · rw [appendChild_children, if_neg hi]
  · rw [appendChild_parent, if_neg hi]

/-! ## The scanner functions at a position -/

theorem parseElementNameLoop_none_spec (s : List Char) (n it : Nat) (str : List Char)
    (h : parseElementNameLoop s n it str = none) :
    ∀ i, it ≤ i → i < it + n → isalnum (deref s i) = true := by
  induction n generalizing it str with
  | zero => intro i hi hi'; omega
  | succ n ih =>
    unfold parseElementNameLoop at h
    by_cases hit : isalnum (deref s it) = true
    · rw [if_pos hit] at h
      intro i hi hi'
      by_cases e : i = it
      · rw [e]; exact hit
      · exact ih (it + 1) _ h i (by omega) (by omega)
    · rw [if_neg hit] at h; exact absurd h (by simp)

theorem mem_substr (s : List Char) (a b : Nat) (c : Char) (h : c ∈ substr s a b) :
    ∃ i, a ≤ i ∧ i < b ∧ i < s.length ∧ c = deref s i := by
  unfold substr at h
  obtain ⟨k, hk, rfl⟩ := List.mem_iff_getElem.mp h
  have hk' : k < b - a ∧ k < s.length - a := by
    simpa [List.length_take, List.length_drop] using hk
  refine ⟨a + k, by omega, by omega, by omega, ?_⟩
  rw [deref_of_lt s (a + k) (by omega), List.get_eq_getElem]
  have e1 : (List.take (b - a) (List.drop a s))[k]? = s[a + k]? := by
    rw [List.getElem?_take_of_lt hk'.1, List.getElem?_drop]
  rw [List.getElem?_eq_getElem hk, List.getElem?_eq_getElem (by omega)] at e1
  exact Option.some.inj e1

theorem length_substr (s : List Char) (a b : Nat) (h : b ≤ s.length) :
    (substr s a b).length = b - a := by
  unfold substr
  rw [List.length_take, List.length_drop]
  omega

/-- C14: when some character of the input at or after `start` is not alphanumeric,
`parseElementName` returns the position `j` of the first such character and sets the
name to the substring between `start` and `j`, which may be empty and consists of
alphanumeric characters only. -/
theorem parseElementName_first_stop (s : List Char) (start : Nat) (buf : List Char)
    (hex : ∃ k, start ≤ k ∧ k < s.length ∧ isalnum (deref s k) = false) :
    ∃ j, start ≤ j ∧ j < s.length ∧ isalnum (deref s j) = false ∧
      (∀ i, start ≤ i → i < j → isalnum (deref s i) = true) ∧
      parseElementName s start s.length buf = (j, substr s start j) ∧
      (substr s start j).length = j - start ∧
      ∀ c ∈ substr s start j, isalnum c = true := by
  obtain ⟨k, hk1, hk2, hk3⟩ := hex
  cases hl : parseElementNameLoop s (s.length - start) start [] with
  | none =>
    have := parseElementNameLoop_none_spec s _ _ _ hl k hk1 (by omega)
    rw [hk3] at this
    exact absurd this (by simp)
  | some r =>
    obtain ⟨j, str⟩ := r
    obtain ⟨a, b, c, d, e⟩ := parseElementNameLoop_some_spec s _ _ _ _ _ hl
    have hj : j < s.length := by omega
    refine ⟨j, a, hj, c, d, ?_, length_substr s start j (Nat.le_of_lt hj), ?_⟩
    · unfold parseElementName
      rw [hl, e]
      rfl
    · intro x hx
      obtain ⟨i, h1, h2, _, rfl⟩ := mem_substr s start j x hx
      exact d i h1 h2

theorem parseElementName_first_stop_witness :
    ∃ j, 1 ≤ j ∧ j < "[quote=User]".toList.length ∧
      isalnum (deref "[quote=User]".toList j) = false ∧
      (∀ i, 1 ≤ i → i < j → isalnum (deref "[quote=User]".toList i) = true) ∧
      parseElementName "[quote=User]".toList 1 "[quote=User]".toList.length []
        = (j, substr "[quote=User]".toList 1 j) ∧
      (substr "[quote=User]".toList 1 j).length = j - 1 ∧
      ∀ c ∈ substr "[quote=User]".toList 1 j, isalnum c = true :=
  parseElementName_first_stop "[quote=User]".toList 1 [] ⟨6, by decide, by decide, by decide⟩

theorem parseText_at_text (s : List Char) (begin : Nat) (hlt : begin < s.length)
    (hc : deref s begin ≠ '[') :
    ∃ p, parseText s begin s.length = ([BuilderCall.newText (substr s begin p)], p) ∧
      begin < p ∧ p ≤ s.length ∧
      (∀ i, begin ≤ i → i < p → deref s i ≠ '[') ∧
      (p = s.length ∨ deref s p = '[') ∧
      (substr s begin p).length = p - begin ∧
      ∀ c ∈ substr s begin p, c ≠ '[' := by
  have hmem : ∀ p, (∀ i, begin ≤ i → i < p → deref s i ≠ '[') →
      ∀ c ∈ substr s begin p, c ≠ '[' := by
    intro p hp c hx
    obtain ⟨i, h1, h2, _, rfl⟩ := mem_substr s begin p c hx
    exact hp i h1 h2
  cases hl : parseTextLoop s (s.length - begin) begin with
  | none =>
    have hn := parseTextLoop_none_spec s _ _ hl
    have hall : ∀ i, begin ≤ i → i < s.length → deref s i ≠ '[' :=
      fun i h1 h2 => hn i h1 (by omega)
    refine ⟨s.length, ?_, hlt, Nat.le_refl _, hall, Or.inl rfl,
      length_substr s begin _ (Nat.le_refl _), hmem _ hall⟩
    unfold parseText
    rw [hl]
    simp
  | some j =>
    obtain ⟨a, b, c, d⟩ := parseTextLoop_some_spec s _ _ _ hl
    have hne : j ≠ begin := fun e => hc (e ▸ c)
    have hj : j < s.length := by omega
    refine ⟨j, ?_, by omega, Nat.le_of_lt hj, d, Or.inr c,
      length_substr s begin _ (Nat.le_of_lt hj), hmem _ d⟩
    unfold parseText
    rw [hl]
    simp [hne]

/-- C15: at a position before the end whose character is not `[`, `parseText` makes
exactly one `newText` call, with the characters from that position up to a position `p`,
and returns `p`: the run is non-empty and holds no `[`, and `p` is the end of the input
or the position of the first `[` after the start, so the run is the longest one. -/
theorem parseText_text_run (s : List Char) (begin : Nat) (hlt : begin < s.length)
    (hc : deref s begin ≠ '[') :
    ∃ p, parseText s begin s.length = ([BuilderCall.newText (substr s begin p)], p) ∧
      begin < p ∧ p ≤ s.length ∧
      (∀ i, begin ≤ i → i < p → deref s i ≠ '[') ∧
      (p = s.length ∨ deref s p = '[') ∧
      (substr s begin p).length = p - begin ∧
      ∀ c ∈ substr s begin p, c ≠ '[' :=
  parseText_at_text s begin hlt hc

theorem parseText_text_run_witness :
    ∃ p, parseText "ab[c]".toList 0 "ab[c]".toList.length
        = ([BuilderCall.newText (substr "ab[c]".toList 0 p)], p) ∧
      0 < p ∧ p ≤ "ab[c]".toList.length ∧
      (∀ i, 0 ≤ i → i < p → deref "ab[c]".toList i ≠ '[') ∧
      (p = "ab[c]".toList.length ∨ deref "ab[c]".toList p = '[') ∧
      (substr "ab[c]".toList 0 p).length = p - 0 ∧
      ∀ c ∈ substr "ab[c]".toList 0 p, c ≠ '[' :=
  parseText_text_run "ab[c]".toList 0 (by decide) (by decide)

/-- C16: at a `[` followed by a non-empty alphanumeric `name` and a non-alphanumeric
stopping character, `parseElement` makes the single call `newElement(name)` (sub-kind
SIMPLE); at a `[/` followed by such a name and stopping character it makes the single
call `newClosingElement(name)` (sub-kind CLOSING); in both cases it returns the position
immediately after the stopping character. -/
theorem parseElement_tag (pre name : List Char) (c : Char) (post : List Char)
    (hne : name ≠ []) (hname : ∀ x ∈ name, isalnum x = true) (hc : isalnum c = false) :
    (parseElement (pre ++ '[' :: (name ++ c :: post)) pre.length
        (pre ++ '[' :: (name ++ c :: post)).length
      = ([BuilderCall.newElement name], (pre ++ '[' :: (name ++ [c])).length)) ∧
    (parseElement (pre ++ '[' :: '/' :: (name ++ c :: post)) pre.length
        (pre ++ '[' :: '/' :: (name ++ c :: post)).length
      = ([BuilderCall.newClosingElement name], (pre ++ '[' :: '/' :: (name ++ [c])).length)) ∧
    elementKind (BuilderCall.newElement name) = some ElementType.SIMPLE ∧
    elementKind (BuilderCall.newClosingElement name) = some ElementType.CLOSING := by
  refine ⟨?_, ?_, rfl, rfl⟩
  · rw [parseElement_open pre name c post hne hname hc]
    simp
    omega
  · rw [parseElement_close pre name c post hne hname hc]
    simp
    omega

theorem parseElement_tag_witness :
    (parseElement ("ab".toList ++ '[' :: ("quote".toList ++ '=' :: "x]".toList)) "ab".toList.length
        ("ab".toList ++ '[' :: ("quote".toList ++ '=' :: "x]".toList)).length
      = ([BuilderCall.newElement "quote".toList],
          ("ab".toList ++ '[' :: ("quote".toList ++ ['='])).length)) ∧
    (parseElement ("ab".toList ++ '[' :: '/' :: ("quote".toList ++ '=' :: "x]".toList))
        "ab".toList.length
        ("ab".toList ++ '[' :: '/' :: ("quote".toList ++ '=' :: "x]".toList)).length
      = ([BuilderCall.newClosingElement "quote".toList],
          ("ab".toList ++ '[' :: '/' :: ("quote".toList ++ ['='])).length)) ∧
    elementKind (BuilderCall.newElement "quote".toList) = some ElementType.SIMPLE ∧
    elementKind (BuilderCall.newClosingElement "quote".toList) = some ElementType.CLOSING :=
  parseElement_tag "ab".toList "quote".toList '=' "x]".toList (by decide) (by decide) (by decide)

/-! ## A tag that runs to the end of the input -/

theorem parseElementName_unterminated (pre name buf : List Char)
    (hname : ∀ x ∈ name, isalnum x = true) :
    parseElementName (pre ++ name) pre.length (pre ++ name).length buf = (pre.length, buf) := by
  unfold parseElementName
  have hn : parseElementNameLoop (pre ++ name) ((pre ++ name).length - pre.length)
      pre.length [] = none := by
    apply parseElementNameLoop_eq_none
    intro i h1 h2
    have := deref_mid pre name [] i h1 (by simp at h2; omega)
    rw [List.append_nil] at this
    exact hname _ this
  rw [hn]

theorem parseElement_unterminated_open (pre name : List Char) (hne : name ≠ [])
    (hname : ∀ x ∈ name, isalnum x = true) :
    parseElement (pre ++ '[' :: name) pre.length (pre ++ '[' :: name).length
      = ([BuilderCall.newText ['[']], pre.length + 1) := by
  have e : pre ++ '[' :: name = (pre ++ ['[']) ++ name := by simp
  have hpos : 0 < name.length := List.length_pos.mpr hne
  have h1 : deref (pre ++ '[' :: name) (pre.length + 1) ≠ '/' := by
    have := deref_mid (pre ++ ['[']) name [] (pre.length + 1) (by simp) (by simp; omega)
    rw [List.append_nil, ← e] at this
    exact isalnum_ne_slash _ (hname _ this)
  have hst : nameStartOf (pre ++ '[' :: name) pre.length = (pre ++ ['[']).length := by
    unfold nameStartOf
    rw [if_neg h1]
    simp
  have hn := parseElementName_unterminated (pre ++ ['[']) name [] hname
  rw [← e] at hn
  rw [parseElement_eq, hst, hn, deref_after pre '[' name]
  simp

theorem parseElement_unterminated_close (pre name : List Char)
    (hname : ∀ x ∈ name, isalnum x = true) :
    parseElement (pre ++ '[' :: '/' :: name) pre.length (pre ++ '[' :: '/' :: name).length
      = ([BuilderCall.newText ['[']], pre.length + 2) := by
  have e : pre ++ '[' :: '/' :: name = (pre ++ ['[', '/']) ++ name := by simp
  have h1 : deref (pre ++ '[' :: '/' :: name) (pre.length + 1) = '/' := by
    have := deref_after (pre ++ ['[']) '/' name
    simpa using this
  have hst : nameStartOf (pre ++ '[' :: '/' :: name) pre.length
      = (pre ++ ['[', '/']).length := by
    unfold nameStartOf
    rw [if_pos h1]
    simp
  have hn := parseElementName_unterminated (pre ++ ['[', '/']) name [] hname
  rw [← e] at hn
  rw [parseElement_eq, hst, hn, deref_after pre '[' ('/' :: name)]
  simp

theorem loadLoop_unterminated (s pre mid name : List Char) (k : Nat)
    (hs : s = pre ++ mid ++ name) (hk : k = (pre ++ mid).length) (hne : name ≠ [])
    (hname : ∀ x ∈ name, isalnum x = true) (hbr : deref s pre.length = '[')
    (hp : parseElement s pre.length s.length = ([BuilderCall.newText ['[']], k))
    (st : LoadState) (hr : LoadReachable s st) (hcur : st.current = pre.length)
    (fuel : Nat) (hfuel : 2 ≤ fuel) :
    loadLoop s s.length fuel st = some (Except.ok
      ⟨s.length, true, NodeType.TEXT,
        st.calls ++ [BuilderCall.newText ['[']] ++ [BuilderCall.newText name]⟩) := by
  obtain ⟨f, rfl⟩ := Nat.exists_eq_add_of_le hfuel
  have hu := (LoadReachable.inv s st hr).1
  obtain ⟨cur, bu, nt, cs⟩ := st
  simp only at hcur hu
  subst hcur hu
  have hpos : 0 < name.length := List.length_pos.mpr hne
  have hlen : s.length = (pre ++ mid).length + name.length := by
    rw [hs, List.length_append]
  have hlt : pre.length ≠ s.length := by
    rw [hlen, List.length_append]; omega
  have htext : ∀ c ∈ name, c ≠ '[' := fun c hc e => by
    have := hname c hc
    rw [e] at this
    exact absurd this (by decide)
  have h1 := loadLoop_element s (f + 1) pre.length nt cs _ k hlt hbr hp
  have h2 := loadLoop_text_at s (pre ++ mid) name [] (by rw [hs]; simp) hne htext (Or.inl rfl)
    f NodeType.ELEMENT (cs ++ [BuilderCall.newText ['[']])
  have h3 := loadLoop_done s f
    ⟨(pre ++ mid).length + name.length, true, NodeType.TEXT,
      cs ++ [BuilderCall.newText ['[']] ++ [BuilderCall.newText name]⟩ hlen.symm
  have e0 : 2 + f = f + 1 + 1 := by omega
  rw [e0, h1, hk, h2, h3, hlen]

/-- C19 (as stated, refuted): the input `[b[i` ends with `[i`, but the `[` of `[i` is
consumed as the stopping character of the tag `[b`; `load` issues `newElement(b)` and
`newText(i)` and no `newText("[")`. -/
theorem load_unterminated_after_open_tag :
    load ("[b".toList ++ '[' :: ['i']) 4 =
      some (Except.ok [BuilderCall.newElement ['b'], BuilderCall.newText ['i']]) := by
  decide

/-- C19 (amended): let the input end with `[name` or `[/name`, `name` non-empty and
alphanumeric.  `parseElementName`, called at the start of the name, returns that start
position and leaves the name empty; and when the scan loop of `load` reaches the `[`,
it issues `newText("[")` and then `newText(name)`, no Element, and finishes (for
`[/name` the `/` is in no call). -/
theorem load_unterminated_tag (pre name : List Char) (hne : name ≠ [])
    (hname : ∀ x ∈ name, isalnum x = true) :
    (parseElementName (pre ++ '[' :: name) (pre.length + 1) (pre ++ '[' :: name).length []
        = (pre.length + 1, []) ∧
      ∀ st, LoadReachable (pre ++ '[' :: name) st → st.current = pre.length →
        ∀ fuel, 2 ≤ fuel →
          loadLoop (pre ++ '[' :: name) (pre ++ '[' :: name).length fuel st =
            some (Except.ok ⟨(pre ++ '[' :: name).length, true, NodeType.TEXT,
              st.calls ++ [BuilderCall.newText ['[']] ++ [BuilderCall.newText name]⟩)) ∧
    (parseElementName (pre ++ '[' :: '/' :: name) (pre.length + 2)
        (pre ++ '[' :: '/' :: name).length [] = (pre.length + 2, []) ∧
      ∀ st, LoadReachable (pre ++ '[' :: '/' :: name) st → st.current = pre.length →
        ∀ fuel, 2 ≤ fuel →
          loadLoop (pre ++ '[' :: '/' :: name) (pre ++ '[' :: '/' :: name).length fuel st =
            some (Except.ok ⟨(pre ++ '[' :: '/' :: name).length, true, NodeType.TEXT,
              st.calls ++ [BuilderCall.newText ['[']] ++ [BuilderCall.newText name]⟩)) ∧
    (∀ fuel, 2 ≤ fuel →
      load ('[' :: name) fuel =
          some (Except.ok [BuilderCall.newText ['['], BuilderCall.newText name]) ∧
        load ('[' :: '/' :: name) fuel =
          some (Except.ok [BuilderCall.newText ['['], BuilderCall.newText name])) := by
  refine ⟨⟨?_, fun st hr hcur fuel hfuel => ?_⟩, ⟨?_, fun st hr hcur fuel hfuel => ?_⟩,
    fun fuel hfuel => ⟨?_, ?_⟩⟩
  rotate_left 4
  · have := loadLoop_unterminated ('[' :: name) [] ['['] name 1 rfl rfl hne hname
      (deref_after [] '[' name) (parseElement_unterminated_open [] name hne hname)
      loadInit LoadReachable.init rfl fuel hfuel
    unfold load
    rw [this]
    rfl
  · have := loadLoop_unterminated ('[' :: '/' :: name) [] ['[', '/'] name 2 rfl rfl hne hname
      (deref_after [] '[' ('/' :: name)) (parseElement_unterminated_close [] name hname)
      loadInit LoadReachable.init rfl fuel hfuel
    unfold load
    rw [this]
    rfl
  · have := parseElementName_unterminated (pre ++ ['[']) name [] hname
    simpa using this
  · exact loadLoop_unterminated _ pre ['['] name (pre.length + 1) (by simp) (by simp) hne hname
      (deref_after pre '[' name) (parseElement_unterminated_open pre name hne hname)
      st hr hcur fuel hfuel
  · have := parseElementName_unterminated (pre ++ ['[', '/']) name [] hname
    simpa using this
  · exact loadLoop_unterminated _ pre ['[', '/'] name (pre.length + 2) (by simp) (by simp) hne
      hname (deref_after pre '[' ('/' :: name)) (parseElement_unterminated_close pre name hname)
      st hr hcur fuel hfuel

theorem load_unterminated_tag_witness :
    (parseElementName ("ab".toList ++ '[' :: "quote".toList) ("ab".toList.length + 1)
        ("ab".toList ++ '[' :: "quote".toList).length [] = ("ab".toList.length + 1, []) ∧
      ∀ st, LoadReachable ("ab".toList ++ '[' :: "quote".toList) st →
        st.current = "ab".toList.length → ∀ fuel, 2 ≤ fuel →
          loadLoop ("ab".toList ++ '[' :: "quote".toList)
              ("ab".toList ++ '[' :: "quote".toList).length fuel st =
            some (Except.ok ⟨("ab".toList ++ '[' :: "quote".toList).length, true, NodeType.TEXT,
              st.calls ++ [BuilderCall.newText ['[']]
                ++ [BuilderCall.newText "quote".toList]⟩)) ∧
    (parseElementName ("ab".toList ++ '[' :: '/' :: "quote".toList) ("ab".toList.length + 2)
        ("ab".toList ++ '[' :: '/' :: "quote".toList).length []
        = ("ab".toList.length + 2, []) ∧
      ∀ st, LoadReachable ("ab".toList ++ '[' :: '/' :: "quote".toList) st →
        st.current = "ab".toList.length → ∀ fuel, 2 ≤ fuel →
          loadLoop ("ab".toList ++ '[' :: '/' :: "quote".toList)
              ("ab".toList ++ '[' :: '/' :: "quote".toList).length fuel st =
            some (Except.ok ⟨("ab".toList ++ '[' :: '/' :: "quote".toList).length, true,
              NodeType.TEXT,
              st.calls ++ [BuilderCall.newText ['[']]
                ++ [BuilderCall.newText "quote".toList]⟩)) ∧
    (∀ fuel, 2 ≤ fuel →
      load ('[' :: "quote".toList) fuel =
          some (Except.ok [BuilderCall.newText ['['], BuilderCall.newText "quote".toList]) ∧
        load ('[' :: '/' :: "quote".toList) fuel =
          some (Except.ok [BuilderCall.newText ['['], BuilderCall.newText "quote".toList])) :=
  load_unterminated_tag "ab".toList "quote".toList (by decide) (by decide)

/-! ## The strings handed to `newText` -/

theorem parseElement_calls (s : List Char) (begin endPos : Nat) :
    (parseElement s begin endPos).1 = [BuilderCall.newText [deref s begin]] ∨
      (∃ n, (parseElement s begin endPos).1 = [BuilderCall.newElement n]) ∨
      (∃ n, (parseElement s begin endPos).1 = [BuilderCall.newClosingElement n]) := by
  rw [parseElement_eq]
  split
  · exact Or.inl rfl
  · split
    · exact Or.inr (Or.inr ⟨_, rfl⟩)
    · exact Or.inr (Or.inl ⟨_, rfl⟩)

theorem loadBody_calls_text (s : List Char) (st st' : LoadState)
    (hu : st.bUnknownNodeType = true) (hlt : st.current < s.length)
    (hb : loadBody s s.length st = Except.ok st')
    (hinv : ∀ t, BuilderCall.newText t ∈ st.calls → IsLoadText s t) :
    ∀ t, BuilderCall.newText t ∈ st'.calls → IsLoadText s t := by
  intro t ht
  by_cases hc : deref s st.current = '['
  · rw [loadBody_element s st hu hc] at hb
    rw [← Except.ok.inj hb] at ht
    simp only [List.mem_append] at ht
    rcases ht with ht | ht
    · exact hinv t ht
    · rcases parseElement_calls s st.current s.length with h | ⟨n, h⟩ | ⟨n, h⟩
      · rw [h, hc] at ht
        have e : t = ['['] := by simpa using ht
        rw [e]
        exact ⟨by simp, Or.inl rfl⟩
      · rw [h] at ht; simp at ht
      · rw [h] at ht; simp at ht
  · rw [loadBody_text s st hu hc] at hb
    rw [← Except.ok.inj hb] at ht
    simp only [List.mem_append] at ht
    rcases ht with ht | ht
    · exact hinv t ht
    · obtain ⟨p, h1, h2, h3, h4, h5, h6, h7⟩ := parseText_at_text s st.current hlt hc
      rw [h1] at ht
      have e : t = substr s st.current p := by simpa using ht
      have hp : st.current + (substr s st.current p).length = p := by rw [h6]; omega
      rw [e]
      refine ⟨fun h0 => ?_, Or.inr ⟨h7, st.current, ?_, ?_⟩⟩
      · rw [h0] at h6
        simp at h6
        omega
      · rw [hp]
      · rw [hp]; exact h5

theorem LoadReachable.calls_text (s : List Char) (st : LoadState) (hr : LoadReachable s st) :
    ∀ t, BuilderCall.newText t ∈ st.calls → IsLoadText s t := by
  induction hr with
  | init => intro t ht; simp [loadInit] at ht
  | step st st' hr hne hbody ih =>
    have hi := LoadReachable.inv s st hr
    exact loadBody_calls_text s st st' hi.1 (Nat.lt_of_le_of_ne hi.2 hne) hbody ih

/-- C20: on every input, at every moment of the scan (in every state the loop of `load`
can reach) each string that has been passed to `newText` is non-empty and is either the
one-character string `[` or a stretch of the input without `[` that ends at the end of
the input or immediately before a `[`; and `load` returns, within `length(input)`
iterations, a sequence of calls of which this holds. -/
theorem load_text_calls (s : List Char) :
    (∀ st, LoadReachable s st → ∀ t, BuilderCall.newText t ∈ st.calls → IsLoadText s t) ∧
    (∀ fuel, s.length ≤ fuel → ∃ calls, load s fuel = some (Except.ok calls) ∧
      ∀ t, BuilderCall.newText t ∈ calls → IsLoadText s t) := by
  refine ⟨fun st hr => LoadReachable.calls_text s st hr, fun fuel hfuel => ?_⟩
  obtain ⟨st', h⟩ := loadLoop_terminates s fuel loadInit rfl (Nat.zero_le _)
    (by simp [loadInit]; exact hfuel)
  have hr := (loadLoop_reachable s fuel loadInit st' LoadReachable.init h).1
  exact ⟨st'.calls, by unfold load; rw [h]; rfl, LoadReachable.calls_text s st' hr⟩

/-! ## Round trip on well-formed input -/

theorem serialise_append (xs ys : List BuilderCall) :
    serialise (xs ++ ys) = serialise xs ++ serialise ys := by
  induction xs with
  | nil => rfl
  | cons x xs ih => simp [serialise, ih]

theorem renderTokens_text_text (t u : List Char) (toks : List Token) :
    renderTokens (Token.text t :: Token.text u :: toks)
      = renderTokens (Token.text (t ++ u) :: toks) := by
  simp [renderTokens, Token.render]

theorem loadLoop_tokens (n : Nat) :
    ∀ (toks : List Token), toks.length ≤ n → (∀ tok ∈ toks, tok.WellFormed) →
    ∀ (s pre : List Char) (nt : NodeType) (cs : List BuilderCall) (fuel : Nat),
      s = pre ++ renderTokens toks → toks.length ≤ fuel →
      ∃ st, loadLoop s s.length fuel ⟨pre.length, true, nt, cs⟩ = some (Except.ok st) ∧
        serialise st.calls = serialise cs ++ renderTokens toks := by
  induction n with
  | zero =>
    intro toks hlen _ s pre nt cs fuel hs _
    have : toks = [] := List.length_eq_zero.mp (Nat.le_zero.mp hlen)
    subst this
    refine ⟨_, loadLoop_done s fuel _ (by rw [hs]; simp [renderTokens]), ?_⟩
    simp [renderTokens]
  | succ n ih =>
    intro toks hlen hwf s pre nt cs fuel hs hfuel
    match toks, hlen, hwf, hs, hfuel with
    | [], _, _, hs, _ =>
      refine ⟨_, loadLoop_done s fuel _ (by rw [hs]; simp [renderTokens]), ?_⟩
      simp [renderTokens]
    | Token.openTag name :: rest, hlen, hwf, hs, hfuel =>
      have hw : name ≠ [] ∧ ∀ x ∈ name, isalnum x = true := hwf _ (List.mem_cons_self _ _)
      obtain ⟨f, rfl⟩ := Nat.exists_eq_succ_of_ne_zero
        (Nat.pos_iff_ne_zero.mp (Nat.lt_of_lt_of_le (Nat.succ_pos _) hfuel))
      have h1 := loadLoop_open_at s pre name ']' (renderTokens rest)
        (by rw [hs]; simp [renderTokens, Token.render]) hw.1 hw.2 isalnum_rbracket f nt cs
      obtain ⟨st, h2, h3⟩ := ih rest (by simp at hlen; omega)
        (fun tok ht => hwf tok (List.mem_cons_of_mem _ ht)) s (pre ++ '[' :: (name ++ [']']))
        NodeType.ELEMENT (cs ++ [BuilderCall.newElement name]) f
        (by rw [hs]; simp [renderTokens, Token.render]) (by simp at hfuel; omega)
      have e : (pre ++ '[' :: (name ++ [']'])).length = pre.length + name.length + 2 := by
        simp; omega
      rw [e] at h2
      refine ⟨st, by rw [Nat.succ_eq_add_one, h1]; exact h2, ?_⟩
      rw [h3, serialise_append]
      simp [serialise, serialiseCall, renderTokens, Token.render]
    | Token.closeTag name :: rest, hlen, hwf, hs, hfuel =>
      have hw : name ≠ [] ∧ ∀ x ∈ name, isalnum x = true := hwf _ (List.mem_cons_self _ _)
      obtain ⟨f, rfl⟩ := Nat.exists_eq_succ_of_ne_zero
        (Nat.pos_iff_ne_zero.mp (Nat.lt_of_lt_of_le (Nat.succ_pos _) hfuel))
      have h1 := loadLoop_close_at s pre name ']' (renderTokens rest)
        (by rw [hs]; simp [renderTokens, Token.render]) hw.1 hw.2 isalnum_rbracket f nt cs
      obtain ⟨st, h2, h3⟩ := ih rest (by simp at hlen; omega)
        (fun tok ht => hwf tok (List.mem_cons_of_mem _ ht)) s
        (pre ++ '[' :: '/' :: (name ++ [']']))
        NodeType.ELEMENT (cs ++ [BuilderCall.newClosingElement name]) f
        (by rw [hs]; simp [renderTokens, Token.render]) (by simp at hfuel; omega)
      have e : (pre ++ '[' :: '/' :: (name ++ [']'])).length = pre.length + name.length + 3 := by
        simp; omega
      rw [e] at h2
      refine ⟨st, by rw [Nat.succ_eq_add_one, h1]; exact h2, ?_⟩
      rw [h3, serialise_append]
      simp [serialise, serialiseCall, renderTokens, Token.render]
    | Token.text t :: rest, hlen, hwf, hs, hfuel =>
      have hw : ∀ c ∈ t, c ≠ '[' := hwf _ (List.mem_cons_self _ _)
      have hwr : ∀ tok ∈ rest, tok.WellFormed := fun tok ht => hwf tok (List.mem_cons_of_mem _ ht)
      by_cases ht : t = []
      · subst ht
        obtain ⟨st, h2, h3⟩ := ih rest (by simp at hlen; omega) hwr s pre nt cs fuel
          (by rw [hs]; simp [renderTokens, Token.render]) (by simp at hfuel; omega)
        exact ⟨st, h2, by rw [h3]; simp [renderTokens, Token.render]⟩
      · obtain ⟨f, rfl⟩ := Nat.exists_eq_succ_of_ne_zero
          (Nat.pos_iff_ne_zero.mp (Nat.lt_of_lt_of_le (Nat.succ_pos _) hfuel))
        have hstep : ∀ post, s = pre ++ t ++ post → (post = [] ∨ ∃ r, post = '[' :: r) →
            rest.length ≤ f → (∀ tok ∈ rest, tok.WellFormed) → post = renderTokens rest →
            ∃ st, loadLoop s s.length (f + 1) ⟨pre.length, true, nt, cs⟩ = some (Except.ok st) ∧
              serialise st.calls = serialise cs ++ (t ++ post) := by
          intro post hs' hpost hf hwr' hpr
          have h1 := loadLoop_text_at s pre t post hs' ht hw hpost f nt cs
          obtain ⟨st, h2, h3⟩ := ih rest (by simp at hlen; omega) hwr' s (pre ++ t)
            NodeType.TEXT (cs ++ [BuilderCall.newText t]) f (by rw [hs', hpr]) hf
          rw [List.length_append] at h2
          refine ⟨st, by rw [h1]; exact h2, ?_⟩
          rw [h3, serialise_append, hpr]
          simp [serialise, serialiseCall]
        match rest, hlen, hwr, hs, hfuel, hstep with
        | [], _, hwr, hs, hfuel, hstep =>
          obtain ⟨st, h2, h3⟩ := hstep [] (by rw [hs]; simp [renderTokens, Token.render])
            (Or.inl rfl) (by simp) hwr rfl
          exact ⟨st, h2, by rw [h3]; simp [renderTokens, Token.render]⟩
        | Token.openTag name :: rest', _, hwr, hs, hfuel, hstep =>
          obtain ⟨st, h2, h3⟩ := hstep (renderTokens (Token.openTag name :: rest'))
            (by rw [hs]; simp [renderTokens, Token.render])
            (Or.inr ⟨_, rfl⟩) (by simp at hfuel ⊢; omega) hwr rfl
          exact ⟨st, h2, by rw [h3]; simp [renderTokens, Token.render]⟩
        | Token.closeTag name :: rest', _, hwr, hs, hfuel, hstep =>
          obtain ⟨st, h2, h3⟩ := hstep (renderTokens (Token.closeTag name :: rest'))
            (by rw [hs]; simp [renderTokens, Token.render])
            (Or.inr ⟨_, rfl⟩) (by simp at hfuel ⊢; omega) hwr rfl
          exact ⟨st, h2, by rw [h3]; simp [renderTokens, Token.render]⟩
        | Token.text u :: rest', hlen, hwr, hs, hfuel, _ =>
          have hwu : ∀ c ∈ u, c ≠ '[' := hwr _ (List.mem_cons_self _ _)
          obtain ⟨st, h2, h3⟩ := ih (Token.text (t ++ u) :: rest')
            (by simp at hlen ⊢; omega)
            (by
              intro tok htok
              rcases List.mem_cons.mp htok with e | e
              · rw [e]
                intro c hc
                rcases List.mem_append.mp hc with h | h
                · exact hw c h
                · exact hwu c h
              · exact hwr tok (List.mem_cons_of_mem _ e))
            s pre nt cs (f + 1)
            (by rw [hs, renderTokens_text_text]) (by simp at hfuel ⊢; omega)
          exact ⟨st, h2, by rw [h3, renderTokens_text_text]⟩

/-- C17: for every input that is a concatenation of text runs without `[` and of tags
`[name]` or `[/name]` with non-empty alphanumeric names, `load` returns (within as many
iterations as there are pieces), and serialising the builder calls it made, in order,
reproduces the input exactly. -/
theorem load_round_trip (toks : List Token) (hwf : ∀ tok ∈ toks, tok.WellFormed)
    (fuel : Nat) (hfuel : toks.length ≤ fuel) :
    ∃ calls, load (renderTokens toks) fuel = some (Except.ok calls) ∧
      serialise calls = renderTokens toks := by
  obtain ⟨st, h1, h2⟩ := loadLoop_tokens toks.length toks (Nat.le_refl _) hwf
    (renderTokens toks) [] NodeType.TEXT [] fuel rfl hfuel
  refine ⟨st.calls, ?_, by rw [h2]; rfl⟩
  unfold load loadInit
  rw [show (0 : Nat) = ([] : List Char).length from rfl, h1]
  rfl

theorem load_round_trip_witness :
    ∃ calls,
      load (renderTokens [Token.text "a ".toList, Token.openTag ['b'], Token.text "bold".toList,
        Token.closeTag ['b'], Token.text "!".toList, Token.text "?".toList]) 6
          = some (Except.ok calls) ∧
      serialise calls = renderTokens [Token.text "a ".toList, Token.openTag ['b'],
        Token.text "bold".toList, Token.closeTag ['b'], Token.text "!".toList,
        Token.text "?".toList] :=
  load_round_trip _ (by decide) 6 (by decide)

/-! ## Bounds of the reads -/

theorem parseTextLoopReads_bounds (s : List Char) (n it i : Nat)
    (h : i ∈ parseTextLoopReads s n it) : it ≤ i ∧ i < it + n := by
  induction n generalizing it with
  | zero => simp [parseTextLoopReads] at h
  | succ n ih =>
    unfold parseTextLoopReads at h
    rcases List.mem_cons.mp h with e | h'
    · omega
    · split at h'
      · simp at h'
      · have := ih (it + 1) h'
        omega

theorem parseElementNameLoopReads_bounds (s : List Char) (n it i : Nat)
    (h : i ∈ parseElementNameLoopReads s n it) : it ≤ i ∧ i < it + n := by
  induction n generalizing it with
  | zero => simp [parseElementNameLoopReads] at h
  | succ n ih =>
    unfold parseElementNameLoopReads at h
    rcases List.mem_cons.mp h with e | h'
    · omega
    · split at h'
      · rcases List.mem_cons.mp h' with e | h''
        · omega
        · have := ih (it + 1) h''
          omega
      · simp at h'

theorem parseTextReads_lt (s : List Char) (begin endPos i : Nat) (hlt : begin < endPos)
    (h : i ∈ parseTextReads s begin endPos) : i < endPos := by
  unfold parseTextReads at h
  rcases List.mem_append.mp h with h1 | h1
  · have := parseTextLoopReads_bounds s _ _ _ h1
    omega
  · have hb := parseText_snd_bounds s begin endPos hlt
    have := List.mem_range'_1.mp h1
    omega

theorem mem_if_singleton {c : Prop} [Decidable c] (a i : Nat)
    (h : i ∈ if c then [a] else []) : i = a := by
  split at h
  · exact List.mem_singleton.mp h
  · simp at h

theorem parseElementReads_bound (s : List Char) (begin i : Nat) (hlt : begin < s.length)
    (h : i ∈ parseElementReads s begin s.length) :
    i < s.length ∨ (i = s.length ∧ begin + 1 = s.length) := by
  unfold parseElementReads at h
  simp only [List.mem_append, List.mem_singleton] at h
  rcases h with (h1 | h1) | h1
  · by_cases e : begin + 1 < s.length
    · exact Or.inl (by omega)
    · exact Or.inr ⟨by omega, by omega⟩
  · have := parseElementNameLoopReads_bounds s _ _ _ h1
    exact Or.inl (by omega)
  · rw [mem_if_singleton begin i h1]; exact Or.inl hlt

theorem loadLoopReads_bound (s : List Char) (fuel : Nat) (st : LoadState)
    (hu : st.bUnknownNodeType = true) (hle : st.current ≤ s.length) (i : Nat)
    (h : i ∈ loadLoopReads s s.length fuel st) :
    i < s.length ∨ (i = s.length ∧ 0 < s.length ∧ deref s (s.length - 1) = '[') := by
  induction fuel generalizing st with
  | zero => simp [loadLoopReads] at h
  | succ fuel ih =>
    unfold loadLoopReads at h
    by_cases he : st.current = s.length
    · rw [if_pos he] at h; simp at h
    · rw [if_neg he] at h
      have hlt : st.current < s.length := Nat.lt_of_le_of_ne hle he
      obtain ⟨st1, h1, _, h3, h4⟩ := loadBody_progress s st hu hlt
      rw [h1] at h
      rcases List.mem_append.mp h with hb | hr
      · unfold loadBodyReads at hb
        simp only [hu, if_true] at hb
        rcases List.mem_append.mp hb with h0 | h0
        · rw [List.mem_singleton.mp h0]; exact Or.inl hlt
        · by_cases hc : deref s st.current = '['
          · simp only [hc, if_true] at h0
            rcases parseElementReads_bound s st.current i hlt h0 with h5 | ⟨h5, h6⟩
            · exact Or.inl h5
            · refine Or.inr ⟨h5, by omega, ?_⟩
              have : s.length - 1 = st.current := by omega
              rw [this]; exact hc
          · simp only [hc, if_false] at h0
            exact Or.inl (parseTextReads_lt s st.current s.length i hlt h0)
      · exact ih st1 h4 h3 hr

/-- C18 (the code at the failing input `[`): `load` reads position 0, then
`parseElement` reads `*nameStart` at position 1, which is `end`.  On `[/` every read is
before `end`.  In general every read of `load` is before `end`, except that a `[` as the
last character of the input makes `parseElement` read the position `end` itself. -/
theorem load_reads_end_after_trailing_bracket :
    loadReads ['['] 1 = [0, 1, 0] ∧
      parseElementReads ['['] 0 1 = [1, 0] ∧
      loadReads "ab[".toList 3 = [0, 0, 1, 2, 0, 1, 2, 3, 2] ∧
      loadReads "[/".toList 2 = [0, 1, 0] ∧
      (∀ (s : List Char) (fuel i : Nat), i ∈ loadReads s fuel →
        i < s.length ∨ (i = s.length ∧ 0 < s.length ∧ deref s (s.length - 1) = '[')) := by
  refine ⟨by decide, by decide, by decide, by decide, fun s fuel i h => ?_⟩
  exact loadLoopReads_bound s fuel loadInit rfl (Nat.zero_le _) i h

/-! ## The output of the printer -/

theorem getIndentLoop_eq (n : Nat) (output : List Char) :
    getIndentLoop n output = output ++ copies "|   ".toList n := by
  induction n generalizing output with
  | zero => simp [getIndentLoop, copies]
  | succ n ih => rw [getIndentLoop, ih, copies, List.append_assoc]

theorem getIndent_eq (d : Nat) : getIndent d = copies "|   ".toList d ++ "|-- ".toList := by
  unfold getIndent
  rw [getIndentLoop_eq, List.nil_append]

theorem printNode_view (h : Heap) (node : NodePtr) (d : Nat) (view : NodeView)
    (hv : viewOf (h node) = some view) :
    printNode h node d = Except.ok (specLine d view) := by
  unfold viewOf at hv
  split at hv
  · rename_i hc hn
    rw [← Option.some.inj hv]
    unfold printNode specLine
    simp only [hn]
  · rename_i hc hn
    rw [← Option.some.inj hv]
    have hd : downCast h node NodeClass.BBElement true = Except.ok (some node) := by
      simp [downCast, cast, dynamicPointerCast, derivesFrom, hc]
    unfold printNode specLine
    simp only [hn, hd]
    rw [getIndent_eq]
    by_cases hk : (h node).elementType = ElementType.CLOSING <;> simp [hk]
  · rename_i hc hn
    rw [← Option.some.inj hv]
    have hd : downCast h node NodeClass.BBText true = Except.ok (some node) := by
      simp [downCast, cast, dynamicPointerCast, derivesFrom, hc]
    unfold printNode specLine
    simp only [hn, hd]
    rw [getIndent_eq]
  · simp at hv

theorem printChildrenLoop_spec (h : Heap) (fuel : Nat) :
    ∀ (nodes : List NodePtr) (d : Nat) (F : Forest), forestOf h fuel nodes = some F →
      d + F.height ≤ 2147483648 →
      printChildrenLoop h fuel nodes d = some (Except.ok (specLines d F)) := by
  induction fuel with
  | zero =>
    intro nodes d F hF _
    cases nodes with
    | nil =>
      simp only [forestOf] at hF
      rw [← Option.some.inj hF]
      rfl
    | cons n rest => simp [forestOf] at hF
  | succ fuel ih =>
    intro nodes d F hF hht
    cases nodes with
    | nil =>
      simp only [forestOf] at hF
      rw [← Option.some.inj hF]
      rfl
    | cons n rest =>
      simp only [forestOf] at hF
      cases hv : viewOf (h n) with
      | none => rw [hv] at hF; simp at hF
      | some view =>
        cases hb : forestOf h fuel (h n).children with
        | none => rw [hv, hb] at hF; simp at hF
        | some below =>
          cases ha : forestOf h fuel rest with
          | none => rw [hv, hb, ha] at hF; simp at hF
          | some after =>
            rw [hv, hb, ha] at hF
            have hFe : Forest.cons view below after = F := Option.some.inj hF
            subst hFe
            simp only [Forest.height] at hht
            have hd : (d + 1) % uintRange = d + 1 := by
              unfold uintRange
              omega
            have h1 := ih (h n).children (d + 1) below hb (by omega)
            have h2 := ih rest d after ha (by omega)
            simp only [printChildrenLoop, printNode_view h n d view hv, hd, h1, h2, specLines]

/-- C13: for every tree of the data model (every node below the root a Document, Element
or Text object; at most 2^31 levels, the range in which the `uint` depth counter and
the `int` loop variable of `getIndent` count exactly), `printDocument` writes the line
`#document` followed by exactly one line per Element and Text node below the root, in
depth-first pre-order of the child sequences; the line of a node at depth `d` is `d`
copies of `|   `, then `|-- `, then `[name]` for a non-CLOSING Element, `[/name]` for a
CLOSING Element, or `@"content"` for a Text. -/
theorem printDocument_spec (h : Heap) (fuel : Nat) (doc : NodePtr) (F : Forest)
    (hF : forestOf h fuel (h doc).children = some F) (hht : F.height ≤ 2147483648) :
    printDocument h fuel doc =
      some (Except.ok ("#document".toList ++ ['\n'] ++ specLines 0 F)) := by
  unfold printDocument printChildren
  rw [printChildrenLoop_spec h fuel (h doc).children 0 F hF (by omega)]

theorem printDocument_spec_witness :
    forestOf exampleHeap 3 (exampleHeap 0).children =
        some (Forest.cons (NodeView.element ['b'] ElementType.SIMPLE)
          (Forest.cons (NodeView.text "bold".toList) Forest.nil Forest.nil)
          (Forest.cons (NodeView.element ['b'] ElementType.CLOSING) Forest.nil Forest.nil)) ∧
      printDocument exampleHeap 3 0 =
        some (Except.ok ("#document".toList ++ ['\n'] ++ specLines 0
          (Forest.cons (NodeView.element ['b'] ElementType.SIMPLE)
            (Forest.cons (NodeView.text "bold".toList) Forest.nil Forest.nil)
            (Forest.cons (NodeView.element ['b'] ElementType.CLOSING)
              Forest.nil Forest.nil)))) ∧
      "#document".toList ++ ['\n'] ++ specLines 0
          (Forest.cons (NodeView.element ['b'] ElementType.SIMPLE)
            (Forest.cons (NodeView.text "bold".toList) Forest.nil Forest.nil)
            (Forest.cons (NodeView.element ['b'] ElementType.CLOSING) Forest.nil Forest.nil))
        = "#document\n|-- [b]\n|   |-- @\"bold\"\n|-- [/b]\n".toList :=
  ⟨by decide, printDocument_spec exampleHeap 3 0 _ (by decide) (by decide), by decide⟩

end bbcpp
